import Mathlib

/-!
Verification of the mind-map layout generator and collapse/expand visibility
engine of the video-summarizer repository.

The layout generator is `generateMindMapData` (src/lib/api-service.ts:308-453);
the arc helper `calculateOptimalPositions` is from src/lib/types.ts:546-557;
the visibility engine is `toggleDescendants` / `handleToggleCollapse`
(src/components/MindMap.tsx:192-255) together with the node/edge
initialization effect (MindMap.tsx:258-285).

Modelling conventions:
* JavaScript floating point trigonometry (`Math.PI`, `Math.cos`, `Math.sin`)
  is abstracted as a `Trig` record of a rational constant and two opaque-as-in
  uninterpreted rational functions; every theorem is universally quantified
  over it.  All remaining numeric computation of the source is exact rational
  arithmetic and is embedded as such over `ℚ`.
* The template-string identifiers (`center`, `topic-i`, `keypoint-i-j`,
  `subtopic-i-j`, `keypoint-sub-i-j-k`, and `edge-src-tgt`) are an injective
  naming scheme; they are modelled by the inductive types `NodeId` and
  `EdgeId` whose constructor applications stand for exactly those strings.
* The JavaScript while-loop of `toggleDescendants` is modelled with a fuel
  parameter (`edges.length + 1`); the development proves that this fuel always
  suffices, so the model agrees with the unbounded loop.
-/

/-- `Topic` of src/lib/types.ts: `title`, `keyPoints`, optional `subtopics`. -/
inductive Topic where
  | mk (title : String) (keyPoints : List String) (subtopics : Option (List Topic))

def Topic.title : Topic → String
  | .mk t _ _ => t

def Topic.keyPoints : Topic → List String
  | .mk _ k _ => k

def Topic.subtopics : Topic → Option (List Topic)
  | .mk _ _ s => s

/-- `SummaryResult` of src/lib/types.ts. -/
structure SummaryResult where
  tldr : String
  topics : List Topic

/-- The `type` field of a generated node: `'topic' | 'subtopic' | 'keypoint'`. -/
inductive NodeKind where
  | topic
  | subtopic
  | keypoint
deriving DecidableEq

/-- Node identifier strings generated by `generateMindMapData`:
`center`, `topic-i`, `keypoint-i-j`, `subtopic-i-j`, `keypoint-sub-i-j-k`. -/
inductive NodeId where
  | center
  | topic (i : ℕ)
  | keypoint (i j : ℕ)
  | subtopic (i j : ℕ)
  | keypointSub (i j k : ℕ)
deriving DecidableEq

/-- Edge identifier strings `edge-SOURCE-TARGET`. -/
inductive EdgeId where
  | mk (source target : NodeId)
deriving DecidableEq

/-- The target component of an edge identifier. -/
def EdgeId.tgt : EdgeId → NodeId
  | .mk _ t => t

/-- The inline `style` record of generated edges. -/
structure EdgeStyle where
  stroke : String
  strokeWidth : ℚ
deriving DecidableEq

/-- `MindMapNode` of src/lib/types.ts (the `data.label` field is flattened
into `label`, `position.x`/`position.y` into `x`/`y`). -/
structure MindMapNode where
  id : NodeId
  type : NodeKind
  label : String
  x : ℚ
  y : ℚ
deriving DecidableEq

/-- `MindMapEdge` of src/lib/types.ts. -/
structure MindMapEdge where
  id : EdgeId
  source : NodeId
  target : NodeId
  animated : Option Bool
  style : Option EdgeStyle
deriving DecidableEq

/-- `MindMapData` of src/lib/types.ts. -/
structure MindMapData where
  nodes : List MindMapNode
  edges : List MindMapEdge

/-- Abstraction of JavaScript float trigonometry: `pi` models `Math.PI`,
`cos`/`sin` model `Math.cos`/`Math.sin`.  Nothing proved here depends on
their values. -/
structure Trig where
  pi : ℚ
  cos : ℚ → ℚ
  sin : ℚ → ℚ

/-- Denominator `Math.max(count - 1, 1)` used when spreading an arc
(api-service.ts:356, 391, 423). -/
def arcStepDenom (total : ℕ) : ℕ := max (total - 1) 1

/-- The arc-subdivision angle of one sibling: the ternary
`total > 1 ? arcStart + idx * arcStep : centerAngle`
(api-service.ts:357-359, 392-394, 424-426). -/
def spreadAngle (center arc : ℚ) (total idx : ℕ) : ℚ :=
  if 1 < total then (center - arc / 2) + (idx : ℚ) * (arc / (arcStepDenom total : ℚ))
  else center

/-- `topicRadius = 300` (api-service.ts:323). -/
def topicRadius : ℚ := 300

/-- `keyPointRadius = 200` (api-service.ts:324). -/
def keyPointRadius : ℚ := 200

/-- `keyPointArc = 0.8` (api-service.ts:325). -/
def keyPointArc : ℚ := 0.8

/-- `subtopicArc = keyPointArc * 0.8` (api-service.ts:384). -/
def subtopicArc : ℚ := keyPointArc * 0.8

/-- `subtopicRadius = 150` (api-service.ts:385). -/
def subtopicRadius : ℚ := 150

/-- `topic.subtopics?.length || 1` (api-service.ts:389). -/
def lengthOr1 (o : Option (List Topic)) : ℕ := max (o.getD []).length 1

/-- Key-point nodes of a subtopic (api-service.ts:418-439).  `sx`/`sy` is the
subtopic position, `sAngle` its angle, `total` the key-point count; the
running index `k` models the `forEach` index. -/
def subKpNodes (tg : Trig) (i j : ℕ) (sx sy sAngle : ℚ) (total : ℕ) :
    ℕ → List String → List MindMapNode
  | _, [] => []
  | k, kp :: rest =>
    { id := NodeId.keypointSub i j k, type := NodeKind.keypoint, label := kp,
      x := sx + tg.cos (spreadAngle sAngle (subtopicArc * 0.7) total k) * 120,
      y := sy + tg.sin (spreadAngle sAngle (subtopicArc * 0.7) total k) * 120 }
      :: subKpNodes tg i j sx sy sAngle total (k + 1) rest

/-- Key-point edges of a subtopic (api-service.ts:441-446). -/
def subKpEdges (i j : ℕ) : ℕ → List String → List MindMapEdge
  | _, [] => []
  | k, _ :: rest =>
    { id := EdgeId.mk (NodeId.subtopic i j) (NodeId.keypointSub i j k),
      source := NodeId.subtopic i j, target := NodeId.keypointSub i j k,
      animated := none, style := some { stroke := "#f97316", strokeWidth := 1 } }
      :: subKpEdges i j (k + 1) rest

/-- Subtopic nodes of a topic, each followed by its own key points
(api-service.ts:387-448).  `tx`/`ty` is the topic position, `angle` its
angle, `total` the `totalSubtopics` value. -/
def subtopicsNodes (tg : Trig) (i : ℕ) (tx ty angle : ℚ) (total : ℕ) :
    ℕ → List Topic → List MindMapNode
  | _, [] => []
  | j, st :: rest =>
    let sAngle := spreadAngle angle subtopicArc total j
    let sx := tx + tg.cos sAngle * subtopicRadius
    let sy := ty + tg.sin sAngle * subtopicRadius
    ({ id := NodeId.subtopic i j, type := NodeKind.subtopic, label := st.title,
       x := sx, y := sy }
      :: subKpNodes tg i j sx sy sAngle st.keyPoints.length 0 st.keyPoints)
    ++ subtopicsNodes tg i tx ty angle total (j + 1) rest

/-- Subtopic edges of a topic (api-service.ts:409-415, 441-446). -/
def subtopicsEdges (i : ℕ) : ℕ → List Topic → List MindMapEdge
  | _, [] => []
  | j, st :: rest =>
    ({ id := EdgeId.mk (NodeId.topic i) (NodeId.subtopic i j),
       source := NodeId.topic i, target := NodeId.subtopic i j,
       animated := some true, style := some { stroke := "#10b981", strokeWidth := 1.5 } }
      :: subKpEdges i j 0 st.keyPoints)
    ++ subtopicsEdges i (j + 1) rest

/-- Direct key-point nodes of a topic (api-service.ts:352-372). -/
def kpNodes (tg : Trig) (i : ℕ) (tx ty angle : ℚ) (total : ℕ) :
    ℕ → List String → List MindMapNode
  | _, [] => []
  | j, kp :: rest =>
    { id := NodeId.keypoint i j, type := NodeKind.keypoint, label := kp,
      x := tx + tg.cos (spreadAngle angle keyPointArc total j) * keyPointRadius,
      y := ty + tg.sin (spreadAngle angle keyPointArc total j) * keyPointRadius }
      :: kpNodes tg i tx ty angle total (j + 1) rest

/-- Direct key-point edges of a topic (api-service.ts:374-379). -/
def kpEdges (i : ℕ) : ℕ → List String → List MindMapEdge
  | _, [] => []
  | j, _ :: rest =>
    { id := EdgeId.mk (NodeId.topic i) (NodeId.keypoint i j),
      source := NodeId.topic i, target := NodeId.keypoint i j,
      animated := none, style := some { stroke := "#f97316", strokeWidth := 1.5 } }
      :: kpEdges i (j + 1) rest

/-- All nodes contributed by one topic: the topic node, its key points, then
its subtopic blocks, guarded by
`if (topic.subtopics && topic.subtopics.length > 0)` (api-service.ts:328-449). -/
def topicBlockNodes (tg : Trig) (spacing : ℚ) (i : ℕ) (t : Topic) : List MindMapNode :=
  let angle := spacing * (i : ℚ)
  let x := tg.cos angle * topicRadius
  let y := tg.sin angle * topicRadius
  ({ id := NodeId.topic i, type := NodeKind.topic, label := t.title, x := x, y := y }
    :: kpNodes tg i x y angle t.keyPoints.length 0 t.keyPoints)
  ++ (match t.subtopics with
      | some l =>
        if 0 < l.length then
          subtopicsNodes tg i x y angle (lengthOr1 t.subtopics) 0 l
        else []
      | none => [])

/-- All edges contributed by one topic (api-service.ts:343-449). -/
def topicBlockEdges (i : ℕ) (t : Topic) : List MindMapEdge :=
  ({ id := EdgeId.mk NodeId.center (NodeId.topic i),
     source := NodeId.center, target := NodeId.topic i,
     animated := some false, style := some { stroke := "#2563eb", strokeWidth := 2 } }
    :: kpEdges i 0 t.keyPoints)
  ++ (match t.subtopics with
      | some l => if 0 < l.length then subtopicsEdges i 0 l else []
      | none => [])

/-- `summary.topics.forEach((topic, topicIndex) => ...)`, node pushes. -/
def topicsNodes (tg : Trig) (spacing : ℚ) : ℕ → List Topic → List MindMapNode
  | _, [] => []
  | i, t :: ts => topicBlockNodes tg spacing i t ++ topicsNodes tg spacing (i + 1) ts

/-- `summary.topics.forEach((topic, topicIndex) => ...)`, edge pushes. -/
def topicsEdges : ℕ → List Topic → List MindMapEdge
  | _, [] => []
  | i, t :: ts => topicBlockEdges i t ++ topicsEdges (i + 1) ts

/-- The center node pushed first (api-service.ts:312-319); note its `type`
is `'topic'`. -/
def centerNode : MindMapNode :=
  { id := NodeId.center, type := NodeKind.topic, label := "Video Summary", x := 0, y := 0 }

/-- `generateMindMapData` (src/lib/api-service.ts:308-453).  `topicSpacing`
is `2 * Math.PI / summary.topics.length`; for an empty topic list the
JavaScript division yields `Infinity` but is never used, here it yields `0`
and is likewise never used. -/
def generateMindMapData (tg : Trig) (summary : SummaryResult) : MindMapData :=
  let spacing := 2 * tg.pi / (summary.topics.length : ℚ)
  { nodes := centerNode :: topicsNodes tg spacing 0 summary.topics,
    edges := topicsEdges 0 summary.topics }

/-- `calculateOptimalPositions` (src/lib/types.ts:546-557). -/
def calculateOptimalPositions (count : ℕ) (totalArc : ℚ) : List ℚ :=
  if count ≤ 1 then [0]
  else (List.range count).map
    (fun (i : ℕ) => -totalArc / 2 + (i : ℚ) * (totalArc / ((count : ℚ) - 1)))

/-- A live node of the visibility engine: a generated node plus the fields
added by the initialization effect (MindMap.tsx:263-273). -/
structure VNode where
  id : NodeId
  type : NodeKind
  label : String
  x : ℚ
  y : ℚ
  hidden : Bool
  isCollapsed : Bool
  isCollapsible : Bool
deriving DecidableEq

/-- A live edge of the visibility engine (MindMap.tsx:276). -/
structure VEdge where
  id : EdgeId
  source : NodeId
  target : NodeId
  animated : Option Bool
  style : Option EdgeStyle
  hidden : Bool
deriving DecidableEq

/-- The engine state: the `nodes` and `edges` React state of `MindMap`. -/
structure MMState where
  nodes : List VNode
  edges : List VEdge
deriving DecidableEq

/-- Node initialization (MindMap.tsx:263-273): `hidden: false`,
`isCollapsed: false`, `isCollapsible: type === topic or subtopic`. -/
def initNode (n : MindMapNode) : VNode :=
  { id := n.id, type := n.type, label := n.label, x := n.x, y := n.y,
    hidden := false, isCollapsed := false,
    isCollapsible := decide (n.type = NodeKind.topic) || decide (n.type = NodeKind.subtopic) }

/-- Edge initialization (MindMap.tsx:276): `hidden: false`. -/
def initEdge (e : MindMapEdge) : VEdge :=
  { id := e.id, source := e.source, target := e.target,
    animated := e.animated, style := e.style, hidden := false }

/-- The state set by the initialization effect for a fresh summary. -/
def initState (tg : Trig) (summary : SummaryResult) : MMState :=
  { nodes := (generateMindMapData tg summary).nodes.map initNode,
    edges := (generateMindMapData tg summary).edges.map initEdge }

/-- One conditional push of `toggleDescendants`:
`if (!stack.includes(edge.target)) stack.push(edge.target)`.  The first
component models the whole `stack` viewed as a set, the second the still
unprocessed suffix `stack[head..]`. -/
def pushT (st : List NodeId × List NodeId) (tgt : NodeId) : List NodeId × List NodeId :=
  if tgt ∈ st.1 then st else (st.1 ++ [tgt], st.2 ++ [tgt])

/-- Push the targets of a batch of child edges in order (the `forEach` over
`childEdges` at MindMap.tsx:199-204 and 213-218). -/
def pushTargets (ce : List VEdge) (st : List NodeId × List NodeId) :
    List NodeId × List NodeId :=
  ce.foldl (fun acc e => pushT acc e.target) st

/-- The `while (head < stack.length)` loop of `toggleDescendants`
(MindMap.tsx:207-219).  `seen` is the stack as a set, `todo` the suffix
`stack[head..]`, `nAcc` the processed entries `stack[1..head)`
(= `nodesToUpdate`), `eAcc` the collected edge ids (= `edgesToUpdate`).
The loop is fueled; `travLoop_final` below shows `edges.length + 1` fuel
always reaches the fixpoint, so this equals the unbounded loop. -/
def travLoop (edges : List VEdge) :
    ℕ → List NodeId → List NodeId → List NodeId → List EdgeId →
    List NodeId × List EdgeId
  | 0, _, _, nAcc, eAcc => (nAcc, eAcc)
  | fuel + 1, seen, todo, nAcc, eAcc =>
    match todo with
    | [] => (nAcc, eAcc)
    | x :: rest =>
      let ce := edges.filter (fun e => decide (e.source = x))
      let st := pushTargets ce (seen, rest)
      travLoop edges fuel st.1 st.2 (nAcc ++ [x]) (eAcc ++ ce.map (fun e => e.id))

/-- The full traversal of `toggleDescendants` (MindMap.tsx:193-219):
the preamble over `directChildrenEdges` followed by the while loop.
Returns (`nodesToUpdate`, `edgesToUpdate`). -/
def toggleTraverse (edges : List VEdge) (nodeId : NodeId) :
    List NodeId × List EdgeId :=
  let direct := edges.filter (fun e => decide (e.source = nodeId))
  let st := pushTargets direct ([nodeId], [])
  travLoop edges (edges.length + 1) st.1 st.2 [] (direct.map (fun e => e.id))

/-- `toggleDescendants` (MindMap.tsx:192-240): recompute the descendant set
and set `hidden := hide` on it; when expanding (`hide = false`) also reset
each descendant's own `isCollapsed` flag
(`const newIsCollapsed = hide ? node.data.isCollapsed : false`). -/
def toggleDescendants (nodeId : NodeId) (hide : Bool)
    (nodes : List VNode) (edges : List VEdge) : List VNode × List VEdge :=
  let trav := toggleTraverse edges nodeId
  ( nodes.map (fun n =>
      if n.id ∈ trav.1 then
        { n with hidden := hide, isCollapsed := if hide then n.isCollapsed else false }
      else n),
    edges.map (fun e => if e.id ∈ trav.2 then { e with hidden := hide } else e) )

/-- `handleToggleCollapse` (MindMap.tsx:243-255).  The UI passes the clicked
node's own `data.isCollapsed` as `isCurrentlyCollapsed`; here it is read off
the state with `find?`, which agrees because node ids are unique.  The
clicked node's `isCollapsed` is flipped first, then descendants are hidden
or shown according to the new state. -/
def toggleCollapse (s : MMState) (nodeId : NodeId) : MMState :=
  let isCur := ((s.nodes.find? (fun n => decide (n.id = nodeId))).map
    (fun n => n.isCollapsed)).getD false
  let toggledNodes := s.nodes.map (fun n =>
    if n.id = nodeId then { n with isCollapsed := !isCur } else n)
  let upd := toggleDescendants nodeId (!isCur) toggledNodes s.edges
  { nodes := upd.1, edges := upd.2 }

/-- A sequence of user toggles applied in order. -/
def runToggles (s : MMState) (l : List NodeId) : MMState :=
  l.foldl toggleCollapse s

/-- The `isCurrentlyCollapsed` value read for a toggle on `nodeId` (the
`isCur` of `toggleCollapse`). -/
def isCurOf (s : MMState) (nodeId : NodeId) : Bool :=
  ((s.nodes.find? (fun n => decide (n.id = nodeId))).map (fun n => n.isCollapsed)).getD false

/-- The per-node effect of `toggleCollapse s nodeId`: the clicked node's
`isCollapsed` flip followed by the descendant update. -/
def updNode (s : MMState) (nodeId : NodeId) (n : VNode) : VNode :=
  let c := isCurOf s nodeId
  let n1 := if n.id = nodeId then { n with isCollapsed := !c } else n
  if n1.id ∈ (toggleTraverse s.edges nodeId).1 then
    { n1 with hidden := !c, isCollapsed := if !c then n1.isCollapsed else false }
  else n1

/-- The per-edge effect of `toggleCollapse s nodeId`. -/
def updEdge (s : MMState) (nodeId : NodeId) (e : VEdge) : VEdge :=
  if e.id ∈ (toggleTraverse s.edges nodeId).2 then
    { e with hidden := !(isCurOf s nodeId) }
  else e

/-- One parent-to-child step read off an edge collection: some edge has
source `a` and target `b`. -/
def estep (edges : List VEdge) (a b : NodeId) : Prop :=
  ∃ e ∈ edges, e.source = a ∧ e.target = b

/-- Total key points over all topics. -/
def totalKeyPoints (s : SummaryResult) : ℕ :=
  (s.topics.map (fun t => t.keyPoints.length)).sum

/-- Total subtopics over all topics. -/
def totalSubtopics (s : SummaryResult) : ℕ :=
  (s.topics.map (fun t => (t.subtopics.getD []).length)).sum

/-- Total key points over all subtopics of all topics. -/
def totalSubKeyPoints (s : SummaryResult) : ℕ :=
  (s.topics.map (fun t =>
    ((t.subtopics.getD []).map (fun st => st.keyPoints.length)).sum)).sum

/-- Spec-side description of the insertion order, subtopic part: for each
subtopic in source order (`j`-th onwards), the subtopic node followed by its
own key-point nodes. -/
def orderSpecSubs (i : ℕ) : ℕ → List Topic → List (NodeId × NodeKind)
  | _, [] => []
  | j, st :: rest =>
    ((NodeId.subtopic i j, NodeKind.subtopic)
      :: (List.range' 0 st.keyPoints.length).map
          (fun k => (NodeId.keypointSub i j k, NodeKind.keypoint)))
    ++ orderSpecSubs i (j + 1) rest

/-- Spec-side description of the insertion order for one topic: the topic
node, then its key-point nodes, then its subtopics each followed by its own
key points. -/
def orderSpecTopic (i : ℕ) (t : Topic) : List (NodeId × NodeKind) :=
  ((NodeId.topic i, NodeKind.topic)
    :: (List.range' 0 t.keyPoints.length).map
        (fun j => (NodeId.keypoint i j, NodeKind.keypoint)))
  ++ orderSpecSubs i 0 (t.subtopics.getD [])

/-- Spec-side description of the insertion order over the topic list. -/
def orderSpecTopics : ℕ → List Topic → List (NodeId × NodeKind)
  | _, [] => []
  | i, t :: ts => orderSpecTopic i t ++ orderSpecTopics (i + 1) ts

/-- Spec-side description of the full insertion order: the root first, then
the topic blocks in source order. -/
def orderSpec (s : SummaryResult) : List (NodeId × NodeKind) :=
  (NodeId.center, NodeKind.topic) :: orderSpecTopics 0 s.topics

/-- The id and kind of a generated node. -/
def nodeKey (n : MindMapNode) : NodeId × NodeKind := (n.id, n.type)

/-- The topic at index `i` of a summary, if any. -/
def topicAt (s : SummaryResult) (i : ℕ) : Option Topic := s.topics.get? i

/-- The subtopic at index `j` of the topic at index `i`, if any. -/
def subtopicAt (s : SummaryResult) (i j : ℕ) : Option Topic :=
  (topicAt s i).bind (fun t => (t.subtopics.getD []).get? j)

/-- Number of key points of the topic at index `i` (0 if out of range). -/
def kpCount (s : SummaryResult) (i : ℕ) : ℕ :=
  ((topicAt s i).map (fun t => t.keyPoints.length)).getD 0

/-- Number of subtopics of the topic at index `i` (0 if out of range). -/
def stCount (s : SummaryResult) (i : ℕ) : ℕ :=
  ((topicAt s i).map (fun t => (t.subtopics.getD []).length)).getD 0

/-- Number of key points of subtopic `j` of topic `i` (0 if out of range). -/
def subKpCount (s : SummaryResult) (i j : ℕ) : ℕ :=
  ((subtopicAt s i j).map (fun t => t.keyPoints.length)).getD 0

/-- Which identifiers are generated for a given summary. -/
def present (s : SummaryResult) : NodeId → Prop
  | NodeId.center => True
  | NodeId.topic i => i < s.topics.length
  | NodeId.keypoint i j => j < kpCount s i
  | NodeId.subtopic i j => j < stCount s i
  | NodeId.keypointSub i j k => k < subKpCount s i j

/-- The parent of each identifier under the generated edge scheme (the root
is mapped to itself; it has no parent). -/
def parentOrCenter : NodeId → NodeId
  | NodeId.center => NodeId.center
  | NodeId.topic _ => NodeId.center
  | NodeId.keypoint i _ => NodeId.topic i
  | NodeId.subtopic i _ => NodeId.topic i
  | NodeId.keypointSub i j _ => NodeId.subtopic i j

/-- Depth of an identifier in the generated tree. -/
def rank : NodeId → ℕ
  | NodeId.center => 0
  | NodeId.topic _ => 1
  | NodeId.keypoint _ _ => 2
  | NodeId.subtopic _ _ => 2
  | NodeId.keypointSub _ _ _ => 3

/-- The topic index carried by an identifier, if any. -/
def topIdxOf : NodeId → Option ℕ
  | NodeId.center => none
  | NodeId.topic i => some i
  | NodeId.keypoint i _ => some i
  | NodeId.subtopic i _ => some i
  | NodeId.keypointSub i _ _ => some i

/-- The subtopic index carried by an identifier, if any. -/
def subIdxOf : NodeId → Option ℕ
  | NodeId.subtopic _ j => some j
  | NodeId.keypointSub _ j _ => some j
  | _ => none

/-- Structural well-formedness of a state, fixed by the generator and
untouched by toggles: unique node and edge ids, every edge endpoint is a
node, at most one incoming edge per node, and no directed cycles. -/
def StaticOK (s : MMState) : Prop :=
  (s.nodes.map (fun n => n.id)).Nodup ∧
  (s.edges.map (fun e => e.id)).Nodup ∧
  (∀ e ∈ s.edges, ∃ n ∈ s.nodes, n.id = e.target) ∧
  (∀ e ∈ s.edges, ∃ n ∈ s.nodes, n.id = e.source) ∧
  (∀ e₁ ∈ s.edges, ∀ e₂ ∈ s.edges, e₁.target = e₂.target → e₁.source = e₂.source) ∧
  (∀ x : NodeId, ¬ Relation.TransGen (estep s.edges) x x)

/-- A node is hidden exactly when some strict ancestor is collapsed. -/
def InvNodes (s : MMState) : Prop :=
  ∀ n ∈ s.nodes, (n.hidden = true ↔
    ∃ a ∈ s.nodes, a.isCollapsed = true ∧ Relation.TransGen (estep s.edges) a.id n.id)

/-- An edge is hidden exactly when its source node is collapsed or hidden. -/
def InvEdges (s : MMState) : Prop :=
  ∀ e ∈ s.edges, (e.hidden = true ↔
    ∃ a ∈ s.nodes, a.id = e.source ∧ (a.isCollapsed = true ∨ a.hidden = true))

/-- The node/edge visibility consistency stated by the spec: a hidden node
hides every incident edge, an edge between two hidden endpoints is hidden,
and no visible edge has a hidden endpoint. -/
def edgeNodeConsistent (s : MMState) : Prop :=
  (∀ n ∈ s.nodes, n.hidden = true →
    ∀ e ∈ s.edges, (e.source = n.id ∨ e.target = n.id) → e.hidden = true) ∧
  (∀ e ∈ s.edges, ∀ ns ∈ s.nodes, ∀ nt ∈ s.nodes,
    ns.id = e.source → nt.id = e.target →
    ns.hidden = true → nt.hidden = true → e.hidden = true) ∧
  (∀ e ∈ s.edges, e.hidden = false →
    ∀ n ∈ s.nodes, (n.id = e.source ∨ n.id = e.target) → n.hidden = false)

/-- States reachable through the UI: in the rendered component only visible
(`hidden = false`) nodes of kind topic/subtopic expose the collapse button,
so every toggle targets such a node. -/
inductive GoodReach (tg : Trig) (summary : SummaryResult) : MMState → Prop where
  | init : GoodReach tg summary (initState tg summary)
  | step (s : MMState) (n : VNode) : GoodReach tg summary s → n ∈ s.nodes →
      n.hidden = false → (n.type = NodeKind.topic ∨ n.type = NodeKind.subtopic) →
      GoodReach tg summary (toggleCollapse s n.id)

/-- A concrete trigonometry instance used for concrete evaluations. -/
def wTrig : Trig := { pi := 0, cos := fun _ => 0, sin := fun _ => 0 }

/-- A concrete summary: topic `A` with one key point and one subtopic `S`
(one key point), topic `B` with one key point. -/
def wSum : SummaryResult :=
  { tldr := "t",
    topics := [Topic.mk "A" ["p"] (some [Topic.mk "S" ["q"] none]),
               Topic.mk "B" ["r"] none] }

/-- A concrete summary: a single topic `A` with no key points and a single
subtopic `S` carrying one key point. -/
def cSum : SummaryResult :=
  { tldr := "t", topics := [Topic.mk "A" [] (some [Topic.mk "S" ["q"] none])] }

/-- The state after collapsing topic 0 of `cSum` (a UI-reachable state in
which `subtopic-0-0` is hidden with `isCollapsed = false`). -/
def cState1 : MMState := toggleCollapse (initState wTrig cSum) (NodeId.topic 0)

/-- The state after the toggle sequence `[topic-0, subtopic-0-0,
subtopic-0-0]` from the fresh layout of `cSum`. -/
def cState3 : MMState :=
  runToggles (initState wTrig cSum) [NodeId.topic 0, NodeId.subtopic 0 0, NodeId.subtopic 0 0]

/-! ## Arc subdivision (C6) and the empty-topics case (C7) -/

theorem arcStepDenom_pos (total : ℕ) : 0 < arcStepDenom total := by
  simp [arcStepDenom]

theorem arcStepDenom_eq (total : ℕ) (h : 1 < total) : arcStepDenom total = total - 1 := by
  have h1 : 1 ≤ total - 1 := by omega
  simp [arcStepDenom, Nat.max_eq_left h1]

theorem cast_pred_eq (total : ℕ) (h : 1 < total) :
    ((total - 1 : ℕ) : ℚ) = (total : ℚ) - 1 := by
  have h1 : 1 ≤ total := by omega
  push_cast [Nat.cast_sub h1]
  ring

theorem spreadAngle_single (c a : ℚ) (total idx : ℕ) (h : total ≤ 1) :
    spreadAngle c a total idx = c := by
  simp [spreadAngle, Nat.not_lt.mpr h]

theorem spreadAngle_first (c a : ℚ) (total : ℕ) (h : 1 < total) :
    spreadAngle c a total 0 = c - a / 2 := by
  simp [spreadAngle, h]

theorem spreadAngle_last (c a : ℚ) (total : ℕ) (h : 1 < total) :
    spreadAngle c a total (total - 1) = c + a / 2 := by
  have hd : arcStepDenom total = total - 1 := arcStepDenom_eq total h
  have hc : ((total - 1 : ℕ) : ℚ) = (total : ℚ) - 1 := cast_pred_eq total h
  have hne : ((total : ℚ) - 1) ≠ 0 := by
    have h2 : (2 : ℚ) ≤ (total : ℚ) := by exact_mod_cast h
    intro hz
    nlinarith
  simp only [spreadAngle, if_pos h, hd, hc]
  field_simp
  ring

theorem spreadAngle_step (c a : ℚ) (total idx : ℕ) (h : 1 < total) :
    spreadAngle c a total (idx + 1) - spreadAngle c a total idx
      = a / ((total : ℚ) - 1) := by
  have hd : arcStepDenom total = total - 1 := arcStepDenom_eq total h
  have hc : ((total - 1 : ℕ) : ℚ) = (total : ℚ) - 1 := cast_pred_eq total h
  simp only [spreadAngle, if_pos h, hd, hc, Nat.cast_add, Nat.cast_one]
  ring

/-- Claim C6: for every sibling group spread across an arc, a singleton group
is placed exactly at the arc's center angle; a group of N > 1 members divides
the arc into N − 1 equal steps with the first and last members at the two
arc endpoints; and the divisor used, `Math.max(count - 1, 1)`, is positive
for every group size, so no division by zero occurs.  This covers the inline
spreading of api-service.ts (`spreadAngle`, used for a topic's key points, a
topic's subtopics and a subtopic's key points) and the
`calculateOptimalPositions` helper of types.ts. -/
theorem c6_arc_groups :
    (∀ c a : ℚ, ∀ total idx : ℕ, total ≤ 1 → spreadAngle c a total idx = c) ∧
    (∀ total : ℕ, 0 < arcStepDenom total) ∧
    (∀ c a : ℚ, ∀ total : ℕ, 1 < total →
      spreadAngle c a total 0 = c - a / 2 ∧
      spreadAngle c a total (total - 1) = c + a / 2 ∧
      (∀ idx : ℕ, spreadAngle c a total (idx + 1) - spreadAngle c a total idx
        = a / ((total : ℚ) - 1))) ∧
    (∀ a : ℚ, ∀ count : ℕ, count ≤ 1 → calculateOptimalPositions count a = [0]) ∧
    (∀ a : ℚ, ∀ count : ℕ, 1 < count →
      (calculateOptimalPositions count a).length = count ∧
      (calculateOptimalPositions count a)[0]? = some (-a / 2) ∧
      (calculateOptimalPositions count a)[count - 1]? = some (a / 2) ∧
      (∀ idx : ℕ, idx + 1 < count →
        ∃ p q : ℚ, (calculateOptimalPositions count a)[idx]? = some p ∧
          (calculateOptimalPositions count a)[idx + 1]? = some q ∧
          q - p = a / ((count : ℚ) - 1))) := by
  refine ⟨spreadAngle_single, arcStepDenom_pos, ?_, ?_, ?_⟩
  · intro c a total h
    exact ⟨spreadAngle_first c a total h, spreadAngle_last c a total h,
      fun idx => spreadAngle_step c a total idx h⟩
  · intro a count h
    simp [calculateOptimalPositions, h]
  · intro a count h
    have hcne : ((count : ℚ) - 1) ≠ 0 := by
      have h2 : (2 : ℚ) ≤ (count : ℚ) := by exact_mod_cast h
      intro hz
      nlinarith
    have hnle : ¬ count ≤ 1 := by omega
    refine ⟨?_, ?_, ?_, ?_⟩
    · rw [calculateOptimalPositions, if_neg hnle, List.length_map, List.length_range]
    · rw [calculateOptimalPositions, if_neg hnle, List.getElem?_map,
        List.getElem?_range (by omega : 0 < count)]
      simp
    · rw [calculateOptimalPositions, if_neg hnle, List.getElem?_map,
        List.getElem?_range (by omega : count - 1 < count)]
      have hc : ((count - 1 : ℕ) : ℚ) = (count : ℚ) - 1 := cast_pred_eq count h
      simp only [Option.map_some', hc]
      congr 1
      field_simp
      ring
    · intro idx hidx
      refine ⟨-a / 2 + (idx : ℚ) * (a / ((count : ℚ) - 1)),
        -a / 2 + ((idx : ℚ) + 1) * (a / ((count : ℚ) - 1)), ?_, ?_, by ring⟩
      · rw [calculateOptimalPositions, if_neg hnle, List.getElem?_map,
          List.getElem?_range (by omega : idx < count)]
        simp
      · rw [calculateOptimalPositions, if_neg hnle, List.getElem?_map,
          List.getElem?_range hidx]
        simp

/-- Witness for C6 at concrete inputs. -/
theorem c6_arc_groups_witness :
    spreadAngle 5 2 1 0 = 5 ∧ spreadAngle 5 2 3 0 = 5 - 2 / 2 ∧
    calculateOptimalPositions 1 2 = [0] ∧
    (calculateOptimalPositions 3 2)[0]? = some ((-2 : ℚ) / 2) := by
  refine ⟨c6_arc_groups.1 5 2 1 0 (by decide), (c6_arc_groups.2.2.1 5 2 3 (by decide)).1,
    c6_arc_groups.2.2.2.1 2 1 (by decide), (c6_arc_groups.2.2.2.2 2 3 (by decide)).2.1⟩

/-- Claim C7: for a hierarchy with an empty topic list the generator returns
exactly the root node and no edges (and, being a total function, raises no
error). -/
theorem c7_empty_topics (tg : Trig) (tl : String) :
    (generateMindMapData tg { tldr := tl, topics := [] }).nodes = [centerNode] ∧
    (generateMindMapData tg { tldr := tl, topics := [] }).edges = [] :=
  ⟨rfl, rfl⟩

/-! ## Node insertion order (C5) and node/edge counts (C1) -/

theorem subKpNodes_keys (tg : Trig) (i j : ℕ) (sx sy sAngle : ℚ) (total : ℕ) :
    ∀ (l : List String) (k : ℕ),
      (subKpNodes tg i j sx sy sAngle total k l).map nodeKey
        = (List.range' k l.length).map
            (fun d => (NodeId.keypointSub i j d, NodeKind.keypoint))
  | [], k => by simp [subKpNodes]
  | _ :: rest, k => by
    simp [subKpNodes, List.range'_succ, nodeKey,
      subKpNodes_keys tg i j sx sy sAngle total rest (k + 1)]

theorem kpNodes_keys (tg : Trig) (i : ℕ) (tx ty angle : ℚ) (total : ℕ) :
    ∀ (l : List String) (k : ℕ),
      (kpNodes tg i tx ty angle total k l).map nodeKey
        = (List.range' k l.length).map
            (fun d => (NodeId.keypoint i d, NodeKind.keypoint))
  | [], k => by simp [kpNodes]
  | _ :: rest, k => by
    simp [kpNodes, List.range'_succ, nodeKey,
      kpNodes_keys tg i tx ty angle total rest (k + 1)]

theorem subtopicsNodes_keys (tg : Trig) (i : ℕ) (tx ty angle : ℚ) (total : ℕ) :
    ∀ (l : List Topic) (j : ℕ),
      (subtopicsNodes tg i tx ty angle total j l).map nodeKey
        = orderSpecSubs i j l
  | [], j => by simp [subtopicsNodes, orderSpecSubs]
  | st :: rest, j => by
    simp [subtopicsNodes, orderSpecSubs, nodeKey, subKpNodes_keys,
      subtopicsNodes_keys tg i tx ty angle total rest (j + 1)]

theorem topicBlockNodes_keys (tg : Trig) (spacing : ℚ) (i : ℕ) (t : Topic) :
    (topicBlockNodes tg spacing i t).map nodeKey = orderSpecTopic i t := by
  rw [topicBlockNodes, orderSpecTopic]
  cases h : t.subtopics with
  | none => simp [h, nodeKey, kpNodes_keys, orderSpecSubs]
  | some l =>
    cases l with
    | nil => simp [h, nodeKey, kpNodes_keys, orderSpecSubs]
    | cons st rest =>
      simp [h, nodeKey, kpNodes_keys, subtopicsNodes_keys]

theorem topicsNodes_keys (tg : Trig) (spacing : ℚ) :
    ∀ (ts : List Topic) (i : ℕ),
      (topicsNodes tg spacing i ts).map nodeKey = orderSpecTopics i ts
  | [], i => by simp [topicsNodes, orderSpecTopics]
  | t :: rest, i => by
    simp [topicsNodes, orderSpecTopics, topicBlockNodes_keys,
      topicsNodes_keys tg spacing rest (i + 1)]

/-- Claim C5: the node list returned by the generator is in insertion order:
the root first, then for each topic in source order the topic node, then its
key-point nodes, then each of its subtopics followed by that subtopic's own
key-point nodes (`orderSpec` transcribes this order from the spec). -/
theorem c5_insertion_order (tg : Trig) (s : SummaryResult) :
    (generateMindMapData tg s).nodes.map nodeKey = orderSpec s := by
  simp [generateMindMapData, orderSpec, centerNode, nodeKey, topicsNodes_keys]

theorem subKpNodes_length (tg : Trig) (i j : ℕ) (sx sy sAngle : ℚ) (total : ℕ) :
    ∀ (l : List String) (k : ℕ),
      (subKpNodes tg i j sx sy sAngle total k l).length = l.length
  | [], _ => rfl
  | _ :: rest, k => by
    simp [subKpNodes, subKpNodes_length tg i j sx sy sAngle total rest (k + 1)]

theorem kpNodes_length (tg : Trig) (i : ℕ) (tx ty angle : ℚ) (total : ℕ) :
    ∀ (l : List String) (k : ℕ),
      (kpNodes tg i tx ty angle total k l).length = l.length
  | [], _ => rfl
  | _ :: rest, k => by
    simp [kpNodes, kpNodes_length tg i tx ty angle total rest (k + 1)]

theorem subtopicsNodes_length (tg : Trig) (i : ℕ) (tx ty angle : ℚ) (total : ℕ) :
    ∀ (l : List Topic) (j : ℕ),
      (subtopicsNodes tg i tx ty angle total j l).length
        = l.length + (l.map (fun st => st.keyPoints.length)).sum
  | [], _ => rfl
  | st :: rest, j => by
    simp [subtopicsNodes, subKpNodes_length,
      subtopicsNodes_length tg i tx ty angle total rest (j + 1)]
    omega

theorem topicBlockNodes_length (tg : Trig) (spacing : ℚ) (i : ℕ) (t : Topic) :
    (topicBlockNodes tg spacing i t).length
      = 1 + t.keyPoints.length + (t.subtopics.getD []).length
        + ((t.subtopics.getD []).map (fun st => st.keyPoints.length)).sum := by
  rw [topicBlockNodes]
  cases h : t.subtopics with
  | none => simp [h, kpNodes_length]; omega
  | some l =>
    cases l with
    | nil => simp [h, kpNodes_length]; omega
    | cons st rest =>
      simp [h, kpNodes_length, subtopicsNodes_length]
      omega

theorem topicsNodes_length (tg : Trig) (spacing : ℚ) :
    ∀ (ts : List Topic) (i : ℕ),
      (topicsNodes tg spacing i ts).length
        = ts.length + (ts.map (fun t => t.keyPoints.length)).sum
          + (ts.map (fun t => (t.subtopics.getD []).length)).sum
          + (ts.map (fun t =>
              ((t.subtopics.getD []).map (fun st => st.keyPoints.length)).sum)).sum
  | [], _ => rfl
  | t :: rest, i => by
    simp [topicsNodes, topicBlockNodes_length,
      topicsNodes_length tg spacing rest (i + 1)]
    omega

theorem subKpEdges_length (i j : ℕ) :
    ∀ (l : List String) (k : ℕ), (subKpEdges i j k l).length = l.length
  | [], _ => rfl
  | _ :: rest, k => by simp [subKpEdges, subKpEdges_length i j rest (k + 1)]

theorem kpEdges_length (i : ℕ) :
    ∀ (l : List String) (k : ℕ), (kpEdges i k l).length = l.length
  | [], _ => rfl
  | _ :: rest, k => by simp [kpEdges, kpEdges_length i rest (k + 1)]

theorem subtopicsEdges_length (i : ℕ) :
    ∀ (l : List Topic) (j : ℕ),
      (subtopicsEdges i j l).length
        = l.length + (l.map (fun st => st.keyPoints.length)).sum
  | [], _ => rfl
  | st :: rest, j => by
    simp [subtopicsEdges, subKpEdges_length, subtopicsEdges_length i rest (j + 1)]
    omega

theorem topicBlockEdges_length (i : ℕ) (t : Topic) :
    (topicBlockEdges i t).length
      = 1 + t.keyPoints.length + (t.subtopics.getD []).length
        + ((t.subtopics.getD []).map (fun st => st.keyPoints.length)).sum := by
  rw [topicBlockEdges]
  cases h : t.subtopics with
  | none => simp [h, kpEdges_length]; omega
  | some l =>
    cases l with
    | nil => simp [h, kpEdges_length]; omega
    | cons st rest =>
      simp [h, kpEdges_length, subtopicsEdges_length]
      omega

theorem topicsEdges_length :
    ∀ (ts : List Topic) (i : ℕ),
      (topicsEdges i ts).length
        = ts.length + (ts.map (fun t => t.keyPoints.length)).sum
          + (ts.map (fun t => (t.subtopics.getD []).length)).sum
          + (ts.map (fun t =>
              ((t.subtopics.getD []).map (fun st => st.keyPoints.length)).sum)).sum
  | [], _ => rfl
  | t :: rest, i => by
    simp [topicsEdges, topicBlockEdges_length, topicsEdges_length rest (i + 1)]
    omega

/-- Claim C1: for every hierarchy with T topics the generator returns exactly
`1 + T + Σ key points + Σ subtopics + Σ subtopic key points` nodes, and
exactly one fewer edge than nodes. -/
theorem c1_counts (tg : Trig) (s : SummaryResult) :
    (generateMindMapData tg s).nodes.length
      = 1 + s.topics.length + totalKeyPoints s + totalSubtopics s + totalSubKeyPoints s ∧
    (generateMindMapData tg s).edges.length + 1
      = (generateMindMapData tg s).nodes.length := by
  constructor
  · simp [generateMindMapData, topicsNodes_length, totalKeyPoints,
      totalSubtopics, totalSubKeyPoints]
    omega
  · simp [generateMindMapData, topicsNodes_length, topicsEdges_length]

/-! ## Shape of the generated edges -/

theorem subKpEdges_shape (i j : ℕ) :
    ∀ (l : List String) (k : ℕ), ∀ e ∈ subKpEdges i j k l,
      e.source = parentOrCenter e.target ∧ e.id = EdgeId.mk e.source e.target ∧
      rank e.target = rank e.source + 1
  | [], _ => by simp [subKpEdges]
  | _ :: rest, k => by
    simp only [subKpEdges, List.mem_cons]
    rintro e (rfl | he)
    · exact ⟨rfl, rfl, rfl⟩
    · exact subKpEdges_shape i j rest (k + 1) e he

theorem kpEdges_shape (i : ℕ) :
    ∀ (l : List String) (k : ℕ), ∀ e ∈ kpEdges i k l,
      e.source = parentOrCenter e.target ∧ e.id = EdgeId.mk e.source e.target ∧
      rank e.target = rank e.source + 1
  | [], _ => by simp [kpEdges]
  | _ :: rest, k => by
    simp only [kpEdges, List.mem_cons]
    rintro e (rfl | he)
    · exact ⟨rfl, rfl, rfl⟩
    · exact kpEdges_shape i rest (k + 1) e he

theorem subtopicsEdges_shape (i : ℕ) :
    ∀ (l : List Topic) (j : ℕ), ∀ e ∈ subtopicsEdges i j l,
      e.source = parentOrCenter e.target ∧ e.id = EdgeId.mk e.source e.target ∧
      rank e.target = rank e.source + 1
  | [], _ => by simp [subtopicsEdges]
  | st :: rest, j => by
    simp only [subtopicsEdges, List.mem_append, List.mem_cons]
    rintro e ((rfl | he) | he)
    · exact ⟨rfl, rfl, rfl⟩
    · exact subKpEdges_shape i j st.keyPoints 0 e he
    · exact subtopicsEdges_shape i rest (j + 1) e he

theorem topicBlockEdges_shape (i : ℕ) (t : Topic) :
    ∀ e ∈ topicBlockEdges i t,
      e.source = parentOrCenter e.target ∧ e.id = EdgeId.mk e.source e.target ∧
      rank e.target = rank e.source + 1 := by
  rw [topicBlockEdges]
  intro e he
  rcases List.mem_append.mp he with h | h
  · rcases List.mem_cons.mp h with rfl | h
    · exact ⟨rfl, rfl, rfl⟩
    · exact kpEdges_shape i t.keyPoints 0 e h
  · revert h
    cases t.subtopics with
    | none => simp
    | some l =>
      by_cases hl : 0 < l.length
      · simp only [if_pos hl]
        exact fun h => subtopicsEdges_shape i l 0 e h
      · simp [if_neg hl]

theorem topicsEdges_shape :
    ∀ (ts : List Topic) (i : ℕ), ∀ e ∈ topicsEdges i ts,
      e.source = parentOrCenter e.target ∧ e.id = EdgeId.mk e.source e.target ∧
      rank e.target = rank e.source + 1
  | [], _ => by simp [topicsEdges]
  | t :: rest, i => by
    simp only [topicsEdges, List.mem_append]
    rintro e (he | he)
    · exact topicBlockEdges_shape i t e he
    · exact topicsEdges_shape rest (i + 1) e he

theorem gen_edges_shape (tg : Trig) (s : SummaryResult) :
    ∀ e ∈ (generateMindMapData tg s).edges,
      e.source = parentOrCenter e.target ∧ e.id = EdgeId.mk e.source e.target ∧
      rank e.target = rank e.source + 1 := by
  intro e he
  exact topicsEdges_shape s.topics 0 e he

/-! ## Edge targets enumerate the non-root node ids in order -/

theorem subKpEdges_targets (i j : ℕ) :
    ∀ (l : List String) (k : ℕ),
      (subKpEdges i j k l).map (fun e => e.target)
        = (List.range' k l.length).map (fun d => NodeId.keypointSub i j d)
  | [], _ => by simp [subKpEdges]
  | _ :: rest, k => by
    simp [subKpEdges, List.range'_succ, subKpEdges_targets i j rest (k + 1)]

theorem kpEdges_targets (i : ℕ) :
    ∀ (l : List String) (k : ℕ),
      (kpEdges i k l).map (fun e => e.target)
        = (List.range' k l.length).map (fun d => NodeId.keypoint i d)
  | [], _ => by simp [kpEdges]
  | _ :: rest, k => by
    simp [kpEdges, List.range'_succ, kpEdges_targets i rest (k + 1)]

theorem subtopicsEdges_targets (i : ℕ) :
    ∀ (l : List Topic) (j : ℕ),
      (subtopicsEdges i j l).map (fun e => e.target)
        = (orderSpecSubs i j l).map Prod.fst
  | [], _ => by simp [subtopicsEdges, orderSpecSubs]
  | st :: rest, j => by
    simp [subtopicsEdges, orderSpecSubs, subKpEdges_targets,
      subtopicsEdges_targets i rest (j + 1), List.map_map, Function.comp]

theorem topicBlockEdges_targets (i : ℕ) (t : Topic) :
    (topicBlockEdges i t).map (fun e => e.target) = (orderSpecTopic i t).map Prod.fst := by
  rw [topicBlockEdges, orderSpecTopic]
  cases h : t.subtopics with
  | none => simp [kpEdges_targets, orderSpecSubs, List.map_map, Function.comp]
  | some l =>
    cases l with
    | nil => simp [kpEdges_targets, orderSpecSubs, List.map_map, Function.comp]
    | cons st rest =>
      simp [kpEdges_targets, subtopicsEdges_targets, List.map_map, Function.comp]

theorem topicsEdges_targets :
    ∀ (ts : List Topic) (i : ℕ),
      (topicsEdges i ts).map (fun e => e.target) = (orderSpecTopics i ts).map Prod.fst
  | [], _ => by simp [topicsEdges, orderSpecTopics]
  | t :: rest, i => by
    simp [topicsEdges, orderSpecTopics, topicBlockEdges_targets,
      topicsEdges_targets rest (i + 1)]

theorem gen_nodes_ids (tg : Trig) (s : SummaryResult) :
    (generateMindMapData tg s).nodes.map (fun n => n.id)
      = NodeId.center :: (orderSpecTopics 0 s.topics).map Prod.fst := by
  have h : (generateMindMapData tg s).nodes.map (fun n => n.id)
      = ((generateMindMapData tg s).nodes.map nodeKey).map Prod.fst := by
    simp [List.map_map, nodeKey, Function.comp]
  rw [h]
  simp [generateMindMapData, centerNode, nodeKey, topicsNodes_keys, orderSpec]

theorem gen_edges_targets (tg : Trig) (s : SummaryResult) :
    (generateMindMapData tg s).edges.map (fun e => e.target)
      = (orderSpecTopics 0 s.topics).map Prod.fst := by
  simp [generateMindMapData, topicsEdges_targets]

/-! ## Uniqueness of node ids -/

theorem mem_orderSpecSubs_fst (i : ℕ) :
    ∀ (l : List Topic) (j : ℕ), ∀ x ∈ (orderSpecSubs i j l).map Prod.fst,
      topIdxOf x = some i ∧ ∃ j', subIdxOf x = some j' ∧ j ≤ j' ∧
        (x = NodeId.subtopic i j' ∨ ∃ k, x = NodeId.keypointSub i j' k)
  | [], _ => by simp [orderSpecSubs]
  | st :: rest, j => by
    intro x hx
    simp only [orderSpecSubs, List.map_append, List.map_cons, List.map_map,
      List.mem_append, List.mem_cons, List.mem_map] at hx
    rcases hx with (rfl | ⟨k, _, hk⟩) | hx
    · exact ⟨rfl, j, rfl, le_refl j, Or.inl rfl⟩
    · rcases hk with rfl
      exact ⟨rfl, j, rfl, le_refl j, Or.inr ⟨k, rfl⟩⟩
    · have hx' : x ∈ (orderSpecSubs i (j + 1) rest).map Prod.fst := by
        simpa using hx
      obtain ⟨h1, j', h2, h3, h4⟩ := mem_orderSpecSubs_fst i rest (j + 1) x hx'
      exact ⟨h1, j', h2, by omega, h4⟩

theorem orderSpecSubs_fst_nodup (i : ℕ) :
    ∀ (l : List Topic) (j : ℕ), ((orderSpecSubs i j l).map Prod.fst).Nodup
  | [], _ => by simp [orderSpecSubs]
  | st :: rest, j => by
    simp only [orderSpecSubs, List.map_append, List.map_cons, List.map_map]
    rw [List.nodup_append]
    refine ⟨?_, orderSpecSubs_fst_nodup i rest (j + 1), ?_⟩
    · rw [List.nodup_cons]
      constructor
      · simp [Function.comp]
      · refine List.Nodup.map ?_ (List.nodup_range' 0 st.keyPoints.length)
        intro a b hab
        simpa using hab
    · intro x hx hx'
      obtain ⟨_, j', hj', hge, _⟩ :=
        mem_orderSpecSubs_fst i rest (j + 1) x (by simpa using hx')
      rcases List.mem_cons.mp hx with rfl | hx2
      · simp [subIdxOf] at hj'
        omega
      · simp only [List.mem_map, Function.comp] at hx2
        obtain ⟨k, _, rfl⟩ := hx2
        simp [subIdxOf] at hj'
        omega

theorem mem_orderSpecTopic_fst (i : ℕ) (t : Topic) :
    ∀ x ∈ (orderSpecTopic i t).map Prod.fst, topIdxOf x = some i := by
  intro x hx
  simp only [orderSpecTopic, List.map_append, List.map_cons, List.map_map,
    List.mem_append, List.mem_cons, List.mem_map] at hx
  rcases hx with (rfl | ⟨j, _, hj⟩) | hx
  · rfl
  · rcases hj with rfl
    rfl
  · exact (mem_orderSpecSubs_fst i (t.subtopics.getD []) 0 x (by simpa using hx)).1

theorem orderSpecTopic_fst_nodup (i : ℕ) (t : Topic) :
    ((orderSpecTopic i t).map Prod.fst).Nodup := by
  simp only [orderSpecTopic, List.map_append, List.map_cons, List.map_map,
    List.cons_append]
  rw [List.nodup_cons, List.nodup_append]
  refine ⟨?_, ?_, orderSpecSubs_fst_nodup i (t.subtopics.getD []) 0, ?_⟩
  · intro h
    rcases List.mem_append.mp h with h' | h'
    · simp [Function.comp] at h'
    · obtain ⟨_, j', _, _, h4⟩ :=
        mem_orderSpecSubs_fst i (t.subtopics.getD []) 0 _ (by simpa using h')
      rcases h4 with h4 | ⟨k, h4⟩ <;> exact absurd h4 (by simp)
  · refine List.Nodup.map ?_ (List.nodup_range' 0 t.keyPoints.length)
    intro a b hab
    simpa using hab
  · intro x hx hx'
    simp only [List.mem_map, Function.comp] at hx
    obtain ⟨j, _, rfl⟩ := hx
    obtain ⟨_, j', _, _, h4⟩ :=
      mem_orderSpecSubs_fst i (t.subtopics.getD []) 0 _ (by simpa using hx')
    rcases h4 with h4 | ⟨k, h4⟩ <;> simp at h4

theorem mem_orderSpecTopics_fst :
    ∀ (ts : List Topic) (i₀ : ℕ), ∀ x ∈ (orderSpecTopics i₀ ts).map Prod.fst,
      ∃ i', topIdxOf x = some i' ∧ i₀ ≤ i'
  | [], _ => by simp [orderSpecTopics]
  | t :: rest, i₀ => by
    intro x hx
    simp only [orderSpecTopics, List.map_append, List.mem_append] at hx
    rcases hx with hx | hx
    · exact ⟨i₀, mem_orderSpecTopic_fst i₀ t x hx, le_refl i₀⟩
    · obtain ⟨i', h1, h2⟩ := mem_orderSpecTopics_fst rest (i₀ + 1) x hx
      exact ⟨i', h1, by omega⟩

theorem orderSpecTopics_fst_nodup :
    ∀ (ts : List Topic) (i₀ : ℕ), ((orderSpecTopics i₀ ts).map Prod.fst).Nodup
  | [], _ => by simp [orderSpecTopics]
  | t :: rest, i₀ => by
    simp only [orderSpecTopics, List.map_append]
    rw [List.nodup_append]
    refine ⟨orderSpecTopic_fst_nodup i₀ t, orderSpecTopics_fst_nodup rest (i₀ + 1), ?_⟩
    intro x hx hx'
    have h1 := mem_orderSpecTopic_fst i₀ t x hx
    obtain ⟨i', h2, h3⟩ := mem_orderSpecTopics_fst rest (i₀ + 1) x hx'
    rw [h1] at h2
    have : i₀ = i' := by exact_mod_cast Option.some_injective ℕ h2
    omega

theorem orderSpec_fst_nodup (s : SummaryResult) :
    ((orderSpec s).map Prod.fst).Nodup := by
  simp only [orderSpec, List.map_cons]
  rw [List.nodup_cons]
  refine ⟨?_, orderSpecTopics_fst_nodup s.topics 0⟩
  intro h
  obtain ⟨i', h1, _⟩ := mem_orderSpecTopics_fst s.topics 0 _ h
  simp [topIdxOf] at h1

theorem gen_nodes_ids_nodup (tg : Trig) (s : SummaryResult) :
    ((generateMindMapData tg s).nodes.map (fun n => n.id)).Nodup := by
  rw [gen_nodes_ids]
  have h := orderSpec_fst_nodup s
  simpa [orderSpec] using h

/-! ## Parent closure of the generated id set -/

theorem subtopic_mem_of_keypointSub (i : ℕ) :
    ∀ (l : List Topic) (j jj kk : ℕ),
      NodeId.keypointSub i jj kk ∈ (orderSpecSubs i j l).map Prod.fst →
      NodeId.subtopic i jj ∈ (orderSpecSubs i j l).map Prod.fst
  | [], _, _, _ => by simp [orderSpecSubs]
  | st :: rest, j, jj, kk => by
    intro hx
    simp only [orderSpecSubs, List.map_append, List.map_cons, List.map_map,
      List.mem_append, List.mem_cons] at hx ⊢
    rcases hx with (h | h) | hx
    · exact absurd h (by simp)
    · have hj : j = jj := by
        simp only [List.mem_map, Function.comp] at h
        obtain ⟨k, _, hk⟩ := h
        simp only [NodeId.keypointSub.injEq] at hk
        exact hk.2.1
      subst hj
      exact Or.inl (Or.inl rfl)
    · exact Or.inr (subtopic_mem_of_keypointSub i rest (j + 1) jj kk hx)

theorem parent_mem_orderSpecTopics :
    ∀ (ts : List Topic) (i₀ : ℕ), ∀ x ∈ (orderSpecTopics i₀ ts).map Prod.fst,
      parentOrCenter x = NodeId.center ∨
        parentOrCenter x ∈ (orderSpecTopics i₀ ts).map Prod.fst
  | [], _ => by simp [orderSpecTopics]
  | t :: rest, i₀ => by
    intro x hx
    simp only [orderSpecTopics, List.map_append, List.mem_append] at hx ⊢
    have htop : NodeId.topic i₀ ∈ (orderSpecTopic i₀ t).map Prod.fst := by
      simp [orderSpecTopic]
    rcases hx with hx | hx
    · simp only [orderSpecTopic, List.map_append, List.map_cons, List.map_map,
        List.cons_append, List.mem_cons, List.mem_append, List.mem_map] at hx
      rcases hx with rfl | (⟨j, _, hj⟩ | hx)
      · exact Or.inl rfl
      · rcases hj with rfl
        exact Or.inr (Or.inl htop)
      · have hx' : x ∈ (orderSpecSubs i₀ 0 (t.subtopics.getD [])).map Prod.fst := by
          simpa using hx
        obtain ⟨_, j', _, _, h4⟩ :=
          mem_orderSpecSubs_fst i₀ (t.subtopics.getD []) 0 x hx'
        rcases h4 with rfl | ⟨k, rfl⟩
        · exact Or.inr (Or.inl htop)
        · refine Or.inr (Or.inl ?_)
          have hmem :
              NodeId.subtopic i₀ j'
                ∈ (orderSpecSubs i₀ 0 (t.subtopics.getD [])).map Prod.fst :=
            subtopic_mem_of_keypointSub i₀ (t.subtopics.getD []) 0 j' k hx'
          simp only [orderSpecTopic, List.map_append, List.map_cons, List.map_map,
            List.cons_append, List.mem_cons, List.mem_append]
          exact Or.inr (Or.inr (by simpa using hmem))
    · rcases parent_mem_orderSpecTopics rest (i₀ + 1) x hx with h | h
      · exact Or.inl h
      · exact Or.inr (Or.inr h)

theorem gen_parent_closure (tg : Trig) (s : SummaryResult) :
    ∀ x ∈ (generateMindMapData tg s).nodes.map (fun n => n.id),
      parentOrCenter x ∈ (generateMindMapData tg s).nodes.map (fun n => n.id) := by
  intro x hx
  rw [gen_nodes_ids] at hx ⊢
  rcases List.mem_cons.mp hx with rfl | hx
  · exact List.mem_cons_self _ _
  · rcases parent_mem_orderSpecTopics s.topics 0 x hx with h | h
    · rw [h]
      exact List.mem_cons_self _ _
    · exact List.mem_cons_of_mem _ h

/-! ## Claim C8: exactly one incoming edge per non-root node -/

theorem gen_target_ne_center (tg : Trig) (s : SummaryResult) :
    ∀ e ∈ (generateMindMapData tg s).edges, e.target ≠ NodeId.center := by
  intro e he
  have hmem : e.target ∈ (generateMindMapData tg s).edges.map (fun e => e.target) :=
    List.mem_map_of_mem _ he
  rw [gen_edges_targets] at hmem
  obtain ⟨i', h1, _⟩ := mem_orderSpecTopics_fst s.topics 0 _ hmem
  intro hc
  rw [hc] at h1
  simp [topIdxOf] at h1

/-- Claim C8: in every generated collection, every node except the root has
exactly one incoming edge, and no edge targets the root. -/
theorem c8_unique_incoming (tg : Trig) (s : SummaryResult) :
    (∀ x : NodeId, x ∈ (generateMindMapData tg s).nodes.map (fun n => n.id) →
      x ≠ NodeId.center →
      (generateMindMapData tg s).edges.countP (fun e => decide (e.target = x)) = 1) ∧
    (∀ e ∈ (generateMindMapData tg s).edges, e.target ≠ NodeId.center) := by
  refine ⟨?_, gen_target_ne_center tg s⟩
  intro x hx hne
  have hcnt : (generateMindMapData tg s).edges.countP (fun e => decide (e.target = x))
      = ((generateMindMapData tg s).edges.map (fun e => e.target)).count x := by
    rw [List.count, List.countP_map]
    rfl
  rw [hcnt, gen_edges_targets]
  rw [gen_nodes_ids] at hx
  rcases List.mem_cons.mp hx with h | h
  · exact absurd h hne
  · exact List.count_eq_one_of_mem (orderSpecTopics_fst_nodup s.topics 0) h

/-- Witness for C8 at a concrete generated collection. -/
theorem c8_unique_incoming_witness :
    (generateMindMapData wTrig wSum).edges.countP
      (fun e => decide (e.target = NodeId.subtopic 0 0)) = 1 :=
  (c8_unique_incoming wTrig wSum).1 (NodeId.subtopic 0 0) (by decide) (by decide)

/-! ## Correctness of the `toggleDescendants` traversal -/

theorem pushT_fst_mem (st : List NodeId × List NodeId) (tgt z : NodeId) :
    z ∈ (pushT st tgt).1 ↔ (z ∈ st.1 ∨ z = tgt) := by
  by_cases h : tgt ∈ st.1
  · simp only [pushT, if_pos h]
    constructor
    · exact Or.inl
    · rintro (hz | rfl)
      · exact hz
      · exact h
  · simp [pushT, if_neg h]

theorem pushT_snd_mem (st : List NodeId × List NodeId) (tgt z : NodeId) :
    z ∈ (pushT st tgt).2 ↔ (z ∈ st.2 ∨ (z = tgt ∧ tgt ∉ st.1)) := by
  by_cases h : tgt ∈ st.1
  · simp only [pushT, if_pos h]
    constructor
    · exact Or.inl
    · rintro (hz | ⟨rfl, hn⟩)
      · exact hz
      · exact absurd h hn
  · simp [pushT, if_neg h, h]

theorem pushT_nodup (st : List NodeId × List NodeId) (tgt : NodeId)
    (h : st.1.Nodup) : (pushT st tgt).1.Nodup := by
  by_cases hm : tgt ∈ st.1
  · simpa [pushT, if_pos hm] using h
  · simp only [pushT, if_neg hm]
    rw [List.nodup_append]
    refine ⟨h, List.nodup_singleton _, ?_⟩
    intro a ha ha'
    rw [List.mem_singleton] at ha'
    subst ha'
    exact hm ha

theorem pushT_length (st : List NodeId × List NodeId) (tgt : NodeId) :
    (pushT st tgt).1.length + st.2.length
      = st.1.length + (pushT st tgt).2.length ∧
    st.1.length ≤ (pushT st tgt).1.length := by
  by_cases hm : tgt ∈ st.1
  · simp [pushT, hm]
  · simp [pushT, hm]
    omega

theorem pushTargets_spec (ce : List VEdge) :
    ∀ st : List NodeId × List NodeId,
      (∀ z, z ∈ (pushTargets ce st).1 ↔ (z ∈ st.1 ∨ ∃ e ∈ ce, e.target = z)) ∧
      (∀ z, z ∈ (pushTargets ce st).2 ↔
        (z ∈ st.2 ∨ (z ∈ (pushTargets ce st).1 ∧ z ∉ st.1))) ∧
      (st.1.Nodup → (pushTargets ce st).1.Nodup) ∧
      ((pushTargets ce st).1.length + st.2.length
        = st.1.length + (pushTargets ce st).2.length) ∧
      st.1.length ≤ (pushTargets ce st).1.length := by
  induction ce with
  | nil =>
    intro st
    refine ⟨fun z => by simp [pushTargets], fun z => ?_, fun h => by simpa [pushTargets], by
      simp [pushTargets], by simp [pushTargets]⟩
    simp only [pushTargets, List.foldl_nil]
    constructor
    · exact Or.inl
    · rintro (hz | ⟨h1, h2⟩)
      · exact hz
      · exact absurd h1 h2
  | cons e rest ih =>
    intro st
    have hunf : pushTargets (e :: rest) st = pushTargets rest (pushT st e.target) := rfl
    obtain ⟨ih1, ih2, ih3, ih4, ih5⟩ := ih (pushT st e.target)
    rw [hunf]
    have p1 := pushT_fst_mem st e.target
    have p2 := pushT_snd_mem st e.target
    have p4 := pushT_length st e.target
    refine ⟨?_, ?_, ?_, ?_, ?_⟩
    · intro z
      rw [ih1 z]
      simp only [List.mem_cons]
      constructor
      · rintro (hz | ⟨e', he', rfl⟩)
        · rcases (p1 z).mp hz with hz | rfl
          · exact Or.inl hz
          · exact Or.inr ⟨e, Or.inl rfl, rfl⟩
        · exact Or.inr ⟨e', Or.inr he', rfl⟩
      · rintro (hz | ⟨e', he' | he', rfl⟩)
        · exact Or.inl ((p1 z).mpr (Or.inl hz))
        · subst he'
          exact Or.inl ((p1 _).mpr (Or.inr rfl))
        · exact Or.inr ⟨e', he', rfl⟩
    · intro z
      rw [ih2 z]
      constructor
      · rintro (hz | ⟨h1, h2⟩)
        · rcases (p2 z).mp hz with hz | ⟨heq, hn⟩
          · exact Or.inl hz
          · refine Or.inr ⟨(ih1 z).mpr (Or.inl ((p1 z).mpr (Or.inr heq))), ?_⟩
            rw [heq]
            exact hn
        · refine Or.inr ⟨h1, fun hz1 => h2 ((p1 z).mpr (Or.inl hz1))⟩
      · rintro (hz | ⟨h1, h2⟩)
        · exact Or.inl ((p2 z).mpr (Or.inl hz))
        · by_cases hz1 : z ∈ (pushT st e.target).1
          · rcases (p1 z).mp hz1 with hz2 | heq
            · exact absurd hz2 h2
            · refine Or.inl ((p2 z).mpr (Or.inr ⟨heq, fun hc => h2 ?_⟩))
              rw [heq]
              exact hc
          · exact Or.inr ⟨h1, hz1⟩
    · intro h
      exact ih3 (pushT_nodup st e.target h)
    · omega
    · omega

/-- One edge-indexed step: `estep` restricted to the filtered child list. -/
theorem mem_child_filter (edges : List VEdge) (y : NodeId) (e : VEdge) :
    e ∈ edges.filter (fun e => decide (e.source = y)) ↔ e ∈ edges ∧ e.source = y := by
  rw [List.mem_filter]
  simp

/-- The loop invariant of the `toggleDescendants` traversal. -/
structure TravInv (edges : List VEdge) (x : NodeId)
    (seen todo nAcc : List NodeId) (eAcc : List EdgeId) : Prop where
  nodup : seen.Nodup
  xmem : x ∈ seen
  reach : ∀ z ∈ seen, z = x ∨ Relation.TransGen (estep edges) x z
  part : ∀ z, z ∈ seen ↔ (z = x ∨ z ∈ nAcc ∨ z ∈ todo)
  xacc : x ∉ nAcc
  xtodo : x ∉ todo
  tgts : ∀ z ∈ seen, z = x ∨ ∃ e ∈ edges, e.target = z
  closed : ∀ p, (p = x ∨ p ∈ nAcc) → ∀ e ∈ edges, e.source = p →
    (e.target ∈ seen ∧ e.id ∈ eAcc)
  esound : ∀ i ∈ eAcc, ∃ e ∈ edges, e.id = i ∧ (e.source = x ∨ e.source ∈ nAcc)
  tsub : ∀ z ∈ todo, z ∈ seen

theorem seen_length_le (edges : List VEdge) (x : NodeId) (seen : List NodeId)
    (hnd : seen.Nodup) (htg : ∀ z ∈ seen, z = x ∨ ∃ e ∈ edges, e.target = z) :
    seen.length ≤ edges.length + 1 := by
  have hsub : seen ⊆ x :: edges.map (fun e => e.target) := by
    intro z hz
    rcases htg z hz with rfl | ⟨e, he, rfl⟩
    · exact List.mem_cons_self _ _
    · exact List.mem_cons_of_mem _ (List.mem_map_of_mem _ he)
  have hsp := List.subperm_of_subset hnd hsub
  have := hsp.length_le
  simpa using this

theorem travLoop_spec (edges : List VEdge) (x : NodeId) :
    ∀ (fuel : ℕ) (seen todo nAcc : List NodeId) (eAcc : List EdgeId),
      TravInv edges x seen todo nAcc eAcc →
      todo.length + (edges.length + 1 - seen.length) ≤ fuel →
      ∃ seenF, TravInv edges x seenF []
        (travLoop edges fuel seen todo nAcc eAcc).1
        (travLoop edges fuel seen todo nAcc eAcc).2
  | 0, seen, todo, nAcc, eAcc => by
    intro inv hfuel
    have hlen := seen_length_le edges x seen inv.nodup inv.tgts
    have htodo : todo = [] := List.length_eq_zero.mp (by omega)
    subst htodo
    exact ⟨seen, by simpa [travLoop] using inv⟩
  | fuel + 1, seen, todo, nAcc, eAcc => by
    intro inv hfuel
    cases todo with
    | nil => exact ⟨seen, by simpa [travLoop] using inv⟩
    | cons y rest =>
      have hywas : y ∈ seen := inv.tsub y (List.mem_cons_self y rest)
      obtain ⟨sp1, sp2, sp3, sp4, sp5⟩ :=
        pushTargets_spec (edges.filter (fun e => decide (e.source = y))) (seen, rest)
      set ce := edges.filter (fun e => decide (e.source = y))
      set st := pushTargets ce (seen, rest)
      have hceE : ∀ e ∈ ce, e ∈ edges ∧ e.source = y :=
        fun e he => (mem_child_filter edges y e).mp he
      have hyreach : ∀ z, (∃ e ∈ ce, e.target = z) →
          Relation.TransGen (estep edges) x z := by
        rintro z ⟨e, he, htz⟩
        obtain ⟨heE, hsrc⟩ := hceE e he
        have hstep : estep edges y z := ⟨e, heE, hsrc, htz⟩
        rcases inv.reach y hywas with rfl | hr
        · exact Relation.TransGen.single hstep
        · exact Relation.TransGen.tail hr hstep
      have hmono : ∀ z ∈ seen, z ∈ st.1 := fun z hz => (sp1 z).mpr (Or.inl hz)
      have hrest : ∀ z ∈ rest, z ∈ st.2 := fun z hz => (sp2 z).mpr (Or.inl hz)
      have inv' : TravInv edges x st.1 st.2 (nAcc ++ [y])
          (eAcc ++ ce.map (fun e => e.id)) := by
        constructor
        · exact sp3 inv.nodup
        · exact hmono x inv.xmem
        · intro z hz
          rcases (sp1 z).mp hz with hz' | htz
          · exact inv.reach z hz'
          · exact Or.inr (hyreach z htz)
        · intro z
          constructor
          · intro hz
            by_cases hzs : z ∈ seen
            · rcases (inv.part z).mp hzs with rfl | hnacc | htodo
              · exact Or.inl rfl
              · exact Or.inr (Or.inl (List.mem_append.mpr (Or.inl hnacc)))
              · rcases List.mem_cons.mp htodo with rfl | hrest'
                · exact Or.inr (Or.inl (List.mem_append.mpr (Or.inr (List.mem_singleton.mpr rfl))))
                · exact Or.inr (Or.inr (hrest z hrest'))
            · exact Or.inr (Or.inr ((sp2 z).mpr (Or.inr ⟨hz, hzs⟩)))
          · rintro (heq | hn | ht)
            · rw [heq]
              exact hmono x inv.xmem
            · rcases List.mem_append.mp hn with hn | hn
              · exact hmono z ((inv.part z).mpr (Or.inr (Or.inl hn)))
              · rw [List.mem_singleton.mp hn]
                exact hmono y hywas
            · rcases (sp2 z).mp ht with hr | ⟨h1, _⟩
              · exact hmono z (inv.tsub z (List.mem_cons_of_mem y hr))
              · exact h1
        · intro h
          rcases List.mem_append.mp h with h | h
          · exact inv.xacc h
          · have hxy : x = y := List.mem_singleton.mp h
            exact inv.xtodo (by rw [hxy]; exact List.mem_cons_self y rest)
        · intro h
          rcases (sp2 x).mp h with hr | ⟨_, hns⟩
          · exact inv.xtodo (List.mem_cons_of_mem y hr)
          · exact hns inv.xmem
        · intro z hz
          rcases (sp1 z).mp hz with hz' | ⟨e, he, htz⟩
          · exact inv.tgts z hz'
          · exact Or.inr ⟨e, (hceE e he).1, htz⟩
        · intro p hp e heE hsrc
          rcases hp with rfl | hp
          · obtain ⟨ht, hi⟩ := inv.closed p (Or.inl rfl) e heE hsrc
            exact ⟨hmono _ ht, List.mem_append.mpr (Or.inl hi)⟩
          · rcases List.mem_append.mp hp with hp | hp
            · obtain ⟨ht, hi⟩ := inv.closed p (Or.inr hp) e heE hsrc
              exact ⟨hmono _ ht, List.mem_append.mpr (Or.inl hi)⟩
            · rw [List.mem_singleton.mp hp] at hsrc
              have hece : e ∈ ce := (mem_child_filter edges y e).mpr ⟨heE, hsrc⟩
              refine ⟨(sp1 _).mpr (Or.inr ⟨e, hece, rfl⟩), ?_⟩
              exact List.mem_append.mpr (Or.inr (List.mem_map_of_mem _ hece))
        · intro i hi
          rcases List.mem_append.mp hi with hi | hi
          · obtain ⟨e, heE, hid, hsrc⟩ := inv.esound i hi
            refine ⟨e, heE, hid, ?_⟩
            rcases hsrc with h | h
            · exact Or.inl h
            · exact Or.inr (List.mem_append.mpr (Or.inl h))
          · obtain ⟨e, he, rfl⟩ := List.mem_map.mp hi
            obtain ⟨heE, hsrc⟩ := hceE e he
            refine ⟨e, heE, rfl, Or.inr ?_⟩
            rw [hsrc]
            exact List.mem_append.mpr (Or.inr (List.mem_singleton.mpr rfl))
        · intro z hz
          rcases (sp2 z).mp hz with hr | ⟨h1, _⟩
          · exact hmono z (inv.tsub z (List.mem_cons_of_mem y hr))
          · exact h1
      have hfuel' : st.2.length + (edges.length + 1 - st.1.length) ≤ fuel := by
        have h4 : st.1.length + rest.length = seen.length + st.2.length := sp4
        have h5 : seen.length ≤ st.1.length := sp5
        have hs1 : st.1.length ≤ edges.length + 1 :=
          seen_length_le edges x st.1 inv'.nodup inv'.tgts
        have hfl : (y :: rest).length = rest.length + 1 := by simp
        omega
      obtain ⟨seenF, hF⟩ := travLoop_spec edges x fuel st.1 st.2 (nAcc ++ [y])
        (eAcc ++ ce.map (fun e => e.id)) inv' hfuel'
      exact ⟨seenF, hF⟩

theorem travInv_final_mem (edges : List VEdge) (x : NodeId)
    (seenF nAcc : List NodeId) (eAcc : List EdgeId)
    (inv : TravInv edges x seenF [] nAcc eAcc) :
    (∀ z, z ∈ nAcc ↔ (Relation.TransGen (estep edges) x z ∧ z ≠ x)) ∧
    (∀ i, i ∈ eAcc ↔ ∃ e ∈ edges, e.id = i ∧
      (e.source = x ∨ (Relation.TransGen (estep edges) x e.source ∧ e.source ≠ x))) := by
  have hseen : ∀ z, z ∈ seenF ↔ (z = x ∨ z ∈ nAcc) := by
    intro z
    rw [inv.part z]
    simp
  have hclosure : ∀ z, Relation.ReflTransGen (estep edges) x z → z ∈ seenF := by
    intro z hz
    induction hz with
    | refl => exact inv.xmem
    | tail hab hbc ih =>
      rename_i b c
      obtain ⟨e, heE, hsrc, htgt⟩ := hbc
      rcases (hseen b).mp ih with rfl | hb
      · rw [← htgt]
        exact (inv.closed b (Or.inl rfl) e heE hsrc).1
      · rw [← htgt]
        exact (inv.closed b (Or.inr hb) e heE hsrc).1
  have hnode : ∀ z, z ∈ nAcc ↔ (Relation.TransGen (estep edges) x z ∧ z ≠ x) := by
    intro z
    constructor
    · intro hz
      have hzs : z ∈ seenF := (hseen z).mpr (Or.inr hz)
      have hne : z ≠ x := fun h => inv.xacc (h ▸ hz)
      rcases inv.reach z hzs with rfl | hr
      · exact absurd rfl hne
      · exact ⟨hr, hne⟩
    · rintro ⟨hr, hne⟩
      have hzs : z ∈ seenF := hclosure z hr.to_reflTransGen
      rcases (hseen z).mp hzs with rfl | hz
      · exact absurd rfl hne
      · exact hz
  refine ⟨hnode, ?_⟩
  intro i
  constructor
  · intro hi
    obtain ⟨e, heE, hid, hsrc⟩ := inv.esound i hi
    refine ⟨e, heE, hid, ?_⟩
    rcases hsrc with h | h
    · exact Or.inl h
    · exact Or.inr ((hnode e.source).mp h)
  · rintro ⟨e, heE, rfl, hsrc⟩
    rcases hsrc with h | h
    · exact (inv.closed e.source (Or.inl h) e heE rfl).2
    · exact (inv.closed e.source (Or.inr ((hnode e.source).mpr h)) e heE rfl).2

theorem toggleTraverse_mem (edges : List VEdge) (x : NodeId) :
    (∀ z, z ∈ (toggleTraverse edges x).1 ↔
      (Relation.TransGen (estep edges) x z ∧ z ≠ x)) ∧
    (∀ i, i ∈ (toggleTraverse edges x).2 ↔ ∃ e ∈ edges, e.id = i ∧
      (e.source = x ∨ (Relation.TransGen (estep edges) x e.source ∧ e.source ≠ x))) := by
  obtain ⟨sp1, sp2, sp3, sp4, sp5⟩ :=
    pushTargets_spec (edges.filter (fun e => decide (e.source = x))) ([x], [])
  set direct := edges.filter (fun e => decide (e.source = x))
  set st := pushTargets direct ([x], [])
  have hdE : ∀ e ∈ direct, e ∈ edges ∧ e.source = x :=
    fun e he => (mem_child_filter edges x e).mp he
  have hxmem : x ∈ st.1 := (sp1 x).mpr (Or.inl (List.mem_singleton.mpr rfl))
  have inv0 : TravInv edges x st.1 st.2 [] (direct.map (fun e => e.id)) := by
    constructor
    · exact sp3 (List.nodup_singleton x)
    · exact hxmem
    · intro z hz
      rcases (sp1 z).mp hz with hz' | ⟨e, he, htz⟩
      · exact Or.inl (List.mem_singleton.mp hz')
      · obtain ⟨heE, hsrc⟩ := hdE e he
        exact Or.inr (Relation.TransGen.single ⟨e, heE, hsrc, htz⟩)
    · intro z
      constructor
      · intro hz
        by_cases hzs : z ∈ ([x] : List NodeId)
        · exact Or.inl (List.mem_singleton.mp hzs)
        · exact Or.inr (Or.inr ((sp2 z).mpr (Or.inr ⟨hz, hzs⟩)))
      · rintro (heq | hn | ht)
        · rw [heq]
          exact hxmem
        · exact absurd hn (List.not_mem_nil z)
        · rcases (sp2 z).mp ht with hr | ⟨h1, _⟩
          · exact absurd hr (List.not_mem_nil z)
          · exact h1
    · exact List.not_mem_nil x
    · intro h
      rcases (sp2 x).mp h with hr | ⟨_, hns⟩
      · exact List.not_mem_nil x hr
      · exact hns (List.mem_singleton.mpr rfl)
    · intro z hz
      rcases (sp1 z).mp hz with hz' | ⟨e, he, htz⟩
      · exact Or.inl (List.mem_singleton.mp hz')
      · exact Or.inr ⟨e, (hdE e he).1, htz⟩
    · intro p hp e heE hsrc
      rcases hp with rfl | hp
      · have hed : e ∈ direct := (mem_child_filter edges p e).mpr ⟨heE, hsrc⟩
        exact ⟨(sp1 _).mpr (Or.inr ⟨e, hed, rfl⟩), List.mem_map_of_mem _ hed⟩
      · exact absurd hp (List.not_mem_nil p)
    · intro i hi
      obtain ⟨e, he, rfl⟩ := List.mem_map.mp hi
      exact ⟨e, (hdE e he).1, rfl, Or.inl (hdE e he).2⟩
    · intro z hz
      rcases (sp2 z).mp hz with hr | ⟨h1, _⟩
      · exact absurd hr (List.not_mem_nil z)
      · exact h1
  have hfuel0 : st.2.length + (edges.length + 1 - st.1.length) ≤ edges.length + 1 := by
    have h4 : st.1.length + ([] : List NodeId).length = ([x] : List NodeId).length + st.2.length := sp4
    have hs1 : st.1.length ≤ edges.length + 1 :=
      seen_length_le edges x st.1 inv0.nodup inv0.tgts
    simp only [List.length_nil, List.length_cons, List.length_singleton] at h4
    omega
  obtain ⟨seenF, hF⟩ := travLoop_spec edges x (edges.length + 1) st.1 st.2 []
    (direct.map (fun e => e.id)) inv0 hfuel0
  have hres : toggleTraverse edges x
      = travLoop edges (edges.length + 1) st.1 st.2 [] (direct.map (fun e => e.id)) := rfl
  rw [hres]
  exact travInv_final_mem edges x seenF _ _ hF

/-! ## Elementwise description of one toggle -/

theorem toggleCollapse_nodes (s : MMState) (nid : NodeId) :
    (toggleCollapse s nid).nodes = s.nodes.map (updNode s nid) := by
  show (s.nodes.map _).map _ = _
  rw [List.map_map]
  rfl

theorem toggleCollapse_edges (s : MMState) (nid : NodeId) :
    (toggleCollapse s nid).edges = s.edges.map (updEdge s nid) := rfl

theorem nid_not_mem_trav (edges : List VEdge) (nid : NodeId) :
    nid ∉ (toggleTraverse edges nid).1 := by
  intro h
  exact ((toggleTraverse_mem edges nid).1 nid).mp h |>.2 rfl

theorem updNode_ite_id (s : MMState) (nid : NodeId) (n : VNode) :
    (if n.id = nid then { n with isCollapsed := !(isCurOf s nid) } else n).id = n.id := by
  split <;> rfl

theorem updNode_id (s : MMState) (nid : NodeId) (n : VNode) :
    (updNode s nid n).id = n.id := by
  simp only [updNode]
  split <;> split <;> rfl

theorem updNode_type (s : MMState) (nid : NodeId) (n : VNode) :
    (updNode s nid n).type = n.type := by
  simp only [updNode]
  split <;> split <;> rfl

theorem updNode_isCollapsible (s : MMState) (nid : NodeId) (n : VNode) :
    (updNode s nid n).isCollapsible = n.isCollapsible := by
  simp only [updNode]
  split <;> split <;> rfl

theorem updNode_label (s : MMState) (nid : NodeId) (n : VNode) :
    (updNode s nid n).label = n.label := by
  simp only [updNode]
  split <;> split <;> rfl

theorem updNode_x (s : MMState) (nid : NodeId) (n : VNode) :
    (updNode s nid n).x = n.x := by
  simp only [updNode]
  split <;> split <;> rfl

theorem updNode_y (s : MMState) (nid : NodeId) (n : VNode) :
    (updNode s nid n).y = n.y := by
  simp only [updNode]
  split <;> split <;> rfl

theorem updNode_hidden (s : MMState) (nid : NodeId) (n : VNode) :
    (updNode s nid n).hidden
      = if n.id ∈ (toggleTraverse s.edges nid).1 then !(isCurOf s nid) else n.hidden := by
  simp only [updNode, updNode_ite_id]
  split <;> split <;> rfl

theorem updNode_isCollapsed_mem_reset (s : MMState) (nid : NodeId) (n : VNode)
    (hc : isCurOf s nid = true) (hm : n.id ∈ (toggleTraverse s.edges nid).1) :
    (updNode s nid n).isCollapsed = false := by
  have hne : n.id ≠ nid := fun h => nid_not_mem_trav s.edges nid (h ▸ hm)
  simp [updNode, updNode_ite_id, hm, hne, hc]

theorem updNode_isCollapsed_mem_keep (s : MMState) (nid : NodeId) (n : VNode)
    (hc : isCurOf s nid = false) (hm : n.id ∈ (toggleTraverse s.edges nid).1) :
    (updNode s nid n).isCollapsed = n.isCollapsed := by
  have hne : n.id ≠ nid := fun h => nid_not_mem_trav s.edges nid (h ▸ hm)
  simp [updNode, updNode_ite_id, hm, hne, hc]

theorem updNode_isCollapsed_not_mem (s : MMState) (nid : NodeId) (n : VNode)
    (hne : n.id ≠ nid) (hm : n.id ∉ (toggleTraverse s.edges nid).1) :
    (updNode s nid n).isCollapsed = n.isCollapsed := by
  simp [updNode, updNode_ite_id, hm, hne]

theorem updNode_isCollapsed_nid (s : MMState) (nid : NodeId) (n : VNode)
    (heq : n.id = nid) :
    (updNode s nid n).isCollapsed = !(isCurOf s nid) := by
  have hm : nid ∉ (toggleTraverse s.edges nid).1 := nid_not_mem_trav s.edges nid
  simp [updNode, updNode_ite_id, heq, hm]

theorem updEdge_id (s : MMState) (nid : NodeId) (e : VEdge) :
    (updEdge s nid e).id = e.id := by
  by_cases h : e.id ∈ (toggleTraverse s.edges nid).2 <;> simp [updEdge, h]

theorem updEdge_source (s : MMState) (nid : NodeId) (e : VEdge) :
    (updEdge s nid e).source = e.source := by
  by_cases h : e.id ∈ (toggleTraverse s.edges nid).2 <;> simp [updEdge, h]

theorem updEdge_target (s : MMState) (nid : NodeId) (e : VEdge) :
    (updEdge s nid e).target = e.target := by
  by_cases h : e.id ∈ (toggleTraverse s.edges nid).2 <;> simp [updEdge, h]

theorem updEdge_hidden (s : MMState) (nid : NodeId) (e : VEdge) :
    (updEdge s nid e).hidden
      = if e.id ∈ (toggleTraverse s.edges nid).2 then !(isCurOf s nid) else e.hidden := by
  by_cases h : e.id ∈ (toggleTraverse s.edges nid).2 <;> simp [updEdge, h]

theorem isCurOf_eq_of_uniform (s : MMState) (x : NodeId) (b : Bool)
    (hmem : x ∈ s.nodes.map (fun n => n.id))
    (hcol : ∀ n ∈ s.nodes, n.id = x → n.isCollapsed = b) :
    isCurOf s x = b := by
  rw [isCurOf]
  cases hf : s.nodes.find? (fun n => decide (n.id = x)) with
  | none =>
    exfalso
    obtain ⟨n, hn, rfl⟩ := List.mem_map.mp hmem
    have := List.find?_eq_none.mp hf n hn
    simp at this
  | some n₀ =>
    have h1 : n₀ ∈ s.nodes := List.mem_of_find?_eq_some hf
    have h2 := List.find?_some hf
    simp only [decide_eq_true_eq] at h2
    simp [hcol n₀ h1 h2]

theorem init_node_flags (tg : Trig) (summary : SummaryResult) :
    ∀ n ∈ (initState tg summary).nodes, n.hidden = false ∧ n.isCollapsed = false := by
  intro n hn
  obtain ⟨m, _, rfl⟩ := List.mem_map.mp hn
  exact ⟨rfl, rfl⟩

theorem init_edge_flags (tg : Trig) (summary : SummaryResult) :
    ∀ e ∈ (initState tg summary).edges, e.hidden = false := by
  intro e he
  obtain ⟨m, _, rfl⟩ := List.mem_map.mp he
  rfl

/-! ## Claim C9: toggling a node without outgoing edges is a no-op on hidden flags -/

theorem trav_empty_of_no_out (edges : List VEdge) (nid : NodeId)
    (h : ∀ e ∈ edges, e.source ≠ nid) :
    (∀ z, z ∉ (toggleTraverse edges nid).1) ∧
    (∀ i, i ∉ (toggleTraverse edges nid).2) := by
  have hstep : ∀ z, ¬ estep edges nid z := by
    rintro z ⟨e, he, hs, _⟩
    exact h e he hs
  have htg : ∀ z, ¬ Relation.TransGen (estep edges) nid z := by
    intro z hz
    obtain ⟨b, hb, _⟩ := Relation.TransGen.head'_iff.mp hz
    exact hstep b hb
  constructor
  · intro z hz
    exact htg z (((toggleTraverse_mem edges nid).1 z).mp hz).1
  · intro i hi
    obtain ⟨e, he, _, hsrc⟩ := ((toggleTraverse_mem edges nid).2 i).mp hi
    rcases hsrc with hs | ⟨htr, _⟩
    · exact h e he hs
    · exact htg _ htr

/-- Claim C9: toggling the id of a node with no outgoing edges (in
particular any key-point node: generated edges never have a key-point
source) leaves every node's and every edge's hidden flag unchanged. -/
theorem c9_keypoint_noop :
    (∀ (s : MMState) (nid : NodeId), (∀ e ∈ s.edges, e.source ≠ nid) →
      ((toggleCollapse s nid).nodes.map (fun n => n.hidden)
          = s.nodes.map (fun n => n.hidden) ∧
       (toggleCollapse s nid).edges.map (fun e => e.hidden)
          = s.edges.map (fun e => e.hidden))) ∧
    (∀ (tg : Trig) (s : SummaryResult), ∀ e ∈ (generateMindMapData tg s).edges,
      (∀ i j : ℕ, e.source ≠ NodeId.keypoint i j) ∧
      (∀ i j k : ℕ, e.source ≠ NodeId.keypointSub i j k)) := by
  constructor
  · intro s nid h
    obtain ⟨hn, he⟩ := trav_empty_of_no_out s.edges nid h
    constructor
    · rw [toggleCollapse_nodes, List.map_map]
      apply List.map_congr_left
      intro n _
      show (updNode s nid n).hidden = n.hidden
      rw [updNode_hidden, if_neg (hn n.id)]
    · rw [toggleCollapse_edges, List.map_map]
      apply List.map_congr_left
      intro e _
      show (updEdge s nid e).hidden = e.hidden
      rw [updEdge_hidden, if_neg (he e.id)]
  · intro tg s e he
    obtain ⟨hp, _, _⟩ := gen_edges_shape tg s e he
    rw [hp]
    cases e.target <;> simp [parentOrCenter]

/-- Witness for C9: toggling the key point `keypoint-0-0` of a concrete
fresh layout changes no hidden flag. -/
theorem c9_keypoint_noop_witness :
    (toggleCollapse (initState wTrig wSum) (NodeId.keypoint 0 0)).nodes.map
        (fun n => n.hidden)
      = (initState wTrig wSum).nodes.map (fun n => n.hidden) ∧
    (toggleCollapse (initState wTrig wSum) (NodeId.keypoint 0 0)).edges.map
        (fun e => e.hidden)
      = (initState wTrig wSum).edges.map (fun e => e.hidden) :=
  c9_keypoint_noop.1 (initState wTrig wSum) (NodeId.keypoint 0 0) (by decide)

/-! ## Claim C10: expanding forgets nested collapse state -/

/-- Claim C10: expanding a collapsed node `x` via `toggleCollapse` sets
`hidden = false` and `isCollapsed = false` on every descendant node and
`hidden = false` on every descendant edge — including descendants that were
independently collapsed, whose collapse state is thereby forgotten. -/
theorem c10_expand_forgets (s : MMState) (x : NodeId)
    (hmem : x ∈ s.nodes.map (fun n => n.id))
    (hcol : ∀ n ∈ s.nodes, n.id = x → n.isCollapsed = true) :
    (∀ n' ∈ (toggleCollapse s x).nodes,
      (Relation.TransGen (estep s.edges) x n'.id ∧ n'.id ≠ x) →
      n'.hidden = false ∧ n'.isCollapsed = false) ∧
    (∀ e' ∈ (toggleCollapse s x).edges,
      (e'.source = x ∨ (Relation.TransGen (estep s.edges) x e'.source ∧ e'.source ≠ x)) →
      e'.hidden = false) := by
  have hc : isCurOf s x = true := isCurOf_eq_of_uniform s x true hmem hcol
  constructor
  · intro n' hn' hdesc
    rw [toggleCollapse_nodes] at hn'
    obtain ⟨n, hn, rfl⟩ := List.mem_map.mp hn'
    rw [updNode_id] at hdesc
    have hm : n.id ∈ (toggleTraverse s.edges x).1 :=
      ((toggleTraverse_mem s.edges x).1 n.id).mpr hdesc
    constructor
    · rw [updNode_hidden, if_pos hm, hc]
      rfl
    · exact updNode_isCollapsed_mem_reset s x n hc hm
  · intro e' he' hdesc
    rw [toggleCollapse_edges] at he'
    obtain ⟨e, he, rfl⟩ := List.mem_map.mp he'
    rw [updEdge_source] at hdesc
    have hm : e.id ∈ (toggleTraverse s.edges x).2 :=
      ((toggleTraverse_mem s.edges x).2 e.id).mpr ⟨e, he, rfl, hdesc⟩
    rw [updEdge_hidden, if_pos hm, hc]
    rfl

/-- Witness for C10: expanding the collapsed topic 0 of a concrete state. -/
theorem c10_expand_forgets_witness :
    (∀ n' ∈ (toggleCollapse cState1 (NodeId.topic 0)).nodes,
      (Relation.TransGen (estep cState1.edges) (NodeId.topic 0) n'.id ∧
        n'.id ≠ NodeId.topic 0) →
      n'.hidden = false ∧ n'.isCollapsed = false) ∧
    (∀ e' ∈ (toggleCollapse cState1 (NodeId.topic 0)).edges,
      (e'.source = NodeId.topic 0 ∨
        (Relation.TransGen (estep cState1.edges) (NodeId.topic 0) e'.source ∧
          e'.source ≠ NodeId.topic 0)) →
      e'.hidden = false) :=
  c10_expand_forgets cState1 (NodeId.topic 0) (by decide) (by decide)

/-! ## Claim C2: collapsing a fully visible subtree hides exactly the descendants -/

/-- Claim C2: from a freshly generated layout (whose subtrees are all fully
visible), one `toggleCollapse` on a collapsible node `x` leaves every
descendant of `x` (every node reachable from `x` along source-to-target
edges, excluding `x` itself) with `hidden = true`, while `x` itself keeps
`hidden = false`. -/
theorem c2_collapse_hides (tg : Trig) (summary : SummaryResult)
    (x : NodeId) (kind : NodeKind)
    (hmem : (x, kind) ∈ (initState tg summary).nodes.map (fun n => (n.id, n.type)))
    (_hkind : kind = NodeKind.topic ∨ kind = NodeKind.subtopic) :
    (∀ n' ∈ (toggleCollapse (initState tg summary) x).nodes,
      (Relation.TransGen (estep (initState tg summary).edges) x n'.id ∧ n'.id ≠ x) →
      n'.hidden = true) ∧
    (∀ n' ∈ (toggleCollapse (initState tg summary) x).nodes, n'.id = x →
      n'.hidden = false) := by
  set s := initState tg summary with hs
  have hmem' : x ∈ s.nodes.map (fun n => n.id) := by
    obtain ⟨n, hn, hpair⟩ := List.mem_map.mp hmem
    refine List.mem_map.mpr ⟨n, hn, ?_⟩
    have := congrArg Prod.fst hpair
    simpa using this
  have hc : isCurOf s x = false :=
    isCurOf_eq_of_uniform s x false hmem'
      (fun n hn _ => (init_node_flags tg summary n hn).2)
  constructor
  · intro n' hn' hdesc
    rw [toggleCollapse_nodes] at hn'
    obtain ⟨n, hn, rfl⟩ := List.mem_map.mp hn'
    rw [updNode_id] at hdesc
    have hm : n.id ∈ (toggleTraverse s.edges x).1 :=
      ((toggleTraverse_mem s.edges x).1 n.id).mpr hdesc
    rw [updNode_hidden, if_pos hm, hc]
    rfl
  · intro n' hn' heq
    rw [toggleCollapse_nodes] at hn'
    obtain ⟨n, hn, rfl⟩ := List.mem_map.mp hn'
    rw [updNode_id] at heq
    have hm : n.id ∉ (toggleTraverse s.edges x).1 := by
      rw [heq]
      exact nid_not_mem_trav s.edges x
    rw [updNode_hidden, if_neg hm]
    exact (init_node_flags tg summary n hn).1

/-- Witness for C2: collapsing topic 0 of a concrete fresh layout. -/
theorem c2_collapse_hides_witness :
    (∀ n' ∈ (toggleCollapse (initState wTrig wSum) (NodeId.topic 0)).nodes,
      (Relation.TransGen (estep (initState wTrig wSum).edges) (NodeId.topic 0) n'.id ∧
        n'.id ≠ NodeId.topic 0) →
      n'.hidden = true) ∧
    (∀ n' ∈ (toggleCollapse (initState wTrig wSum) (NodeId.topic 0)).nodes,
      n'.id = NodeId.topic 0 → n'.hidden = false) :=
  c2_collapse_hides wTrig wSum (NodeId.topic 0) NodeKind.topic (by decide) (Or.inl rfl)

/-! ## Claim C4: double toggle -/

theorem toggle_ids (s : MMState) (nid : NodeId) :
    (toggleCollapse s nid).nodes.map (fun n => n.id) = s.nodes.map (fun n => n.id) := by
  rw [toggleCollapse_nodes, List.map_map]
  exact List.map_congr_left (fun n _ => updNode_id s nid n)

theorem toggle_edge_statics (s : MMState) (nid : NodeId) :
    (toggleCollapse s nid).edges.map (fun e => (e.id, e.source, e.target))
      = s.edges.map (fun e => (e.id, e.source, e.target)) := by
  rw [toggleCollapse_edges, List.map_map]
  refine List.map_congr_left (fun e _ => ?_)
  show ((updEdge s nid e).id, (updEdge s nid e).source, (updEdge s nid e).target) = _
  rw [updEdge_id, updEdge_source, updEdge_target]

theorem estep_toggle (s : MMState) (nid : NodeId) (a b : NodeId) :
    estep (toggleCollapse s nid).edges a b ↔ estep s.edges a b := by
  rw [toggleCollapse_edges]
  constructor
  · rintro ⟨e', he', hs, ht⟩
    obtain ⟨e, he, rfl⟩ := List.mem_map.mp he'
    rw [updEdge_source] at hs
    rw [updEdge_target] at ht
    exact ⟨e, he, hs, ht⟩
  · rintro ⟨e, he, hs, ht⟩
    exact ⟨updEdge s nid e, List.mem_map_of_mem _ he,
      by rw [updEdge_source]; exact hs, by rw [updEdge_target]; exact ht⟩

theorem transGen_toggle (s : MMState) (nid : NodeId) (a b : NodeId) :
    Relation.TransGen (estep (toggleCollapse s nid).edges) a b ↔
      Relation.TransGen (estep s.edges) a b := by
  constructor
  · exact Relation.TransGen.mono (fun p q h => (estep_toggle s nid p q).mp h)
  · exact Relation.TransGen.mono (fun p q h => (estep_toggle s nid p q).mpr h)

theorem trav_toggle_nodes (s : MMState) (nid x : NodeId) (z : NodeId) :
    z ∈ (toggleTraverse (toggleCollapse s nid).edges x).1 ↔
      z ∈ (toggleTraverse s.edges x).1 := by
  rw [(toggleTraverse_mem (toggleCollapse s nid).edges x).1 z,
    (toggleTraverse_mem s.edges x).1 z, transGen_toggle]

theorem trav_toggle_edges (s : MMState) (nid x : NodeId) (i : EdgeId) :
    i ∈ (toggleTraverse (toggleCollapse s nid).edges x).2 ↔
      i ∈ (toggleTraverse s.edges x).2 := by
  rw [(toggleTraverse_mem (toggleCollapse s nid).edges x).2 i,
    (toggleTraverse_mem s.edges x).2 i]
  constructor
  · rintro ⟨e', he', hid, hcond⟩
    rw [toggleCollapse_edges] at he'
    obtain ⟨e, he, rfl⟩ := List.mem_map.mp he'
    rw [updEdge_id] at hid
    rw [updEdge_source] at hcond
    rw [transGen_toggle] at hcond
    exact ⟨e, he, hid, hcond⟩
  · rintro ⟨e, he, hid, hcond⟩
    refine ⟨updEdge s nid e, ?_, ?_, ?_⟩
    · rw [toggleCollapse_edges]
      exact List.mem_map_of_mem _ he
    · rw [updEdge_id]
      exact hid
    · rw [updEdge_source]
      rcases hcond with h | ⟨h1, h2⟩
      · exact Or.inl h
      · exact Or.inr ⟨(transGen_toggle s nid x e.source).mpr h1, h2⟩

/-- Claim C4 as stated is false: in the UI-reachable state `cState1` (topic
0 collapsed), the collapsible node `subtopic-0-0` has no collapsed
collapsible node in its descendant subtree (second conjunct; by
`toggleTraverse_mem` the traversal set is exactly the descendant set), yet
toggling it twice changes the hidden flags (it re-shows the hidden subtree
of a hidden node). -/
theorem c4_double_toggle_counterexample :
    ((NodeId.subtopic 0 0, NodeKind.subtopic)
        ∈ cState1.nodes.map (fun n => (n.id, n.type))) ∧
    (∀ n ∈ cState1.nodes,
      n.id ∈ (toggleTraverse cState1.edges (NodeId.subtopic 0 0)).1 →
      n.isCollapsed = false) ∧
    (toggleCollapse (toggleCollapse cState1 (NodeId.subtopic 0 0))
        (NodeId.subtopic 0 0)).nodes.map (fun n => n.hidden)
      ≠ cState1.nodes.map (fun n => n.hidden) := by
  refine ⟨by decide, by decide, by decide⟩

theorem isCurOf_toggle_nid (s : MMState) (x : NodeId)
    (hmem : x ∈ s.nodes.map (fun n => n.id)) :
    isCurOf (toggleCollapse s x) x = !(isCurOf s x) := by
  apply isCurOf_eq_of_uniform
  · rw [toggle_ids]
    exact hmem
  · intro n' hn' heq
    rw [toggleCollapse_nodes] at hn'
    obtain ⟨n, hn, rfl⟩ := List.mem_map.mp hn'
    rw [updNode_id] at heq
    exact updNode_isCollapsed_nid s x n heq

/-- Claim C4, amended: for a collapsible node `x` whose own collapsed flag is
`false` and whose descendant subtree is fully visible (every descendant node,
and every edge out of `x` or out of a descendant, has `hidden = false`),
toggling `x` twice in succession restores every node's and edge's hidden
flag.  (As stated, the claim fails when `x` itself sits inside a collapsed
subtree; see the counterexample.) -/
theorem c4_double_toggle_amended (s : MMState) (x : NodeId) (kind : NodeKind)
    (hndE : (s.edges.map (fun e => e.id)).Nodup)
    (hkindmem : (x, kind) ∈ s.nodes.map (fun n => (n.id, n.type)))
    (_hkind : kind = NodeKind.topic ∨ kind = NodeKind.subtopic)
    (hcol : ∀ n ∈ s.nodes, n.id = x → n.isCollapsed = false)
    (hvisN : ∀ n ∈ s.nodes, Relation.TransGen (estep s.edges) x n.id → n.hidden = false)
    (hvisE : ∀ e ∈ s.edges,
      (e.source = x ∨ Relation.TransGen (estep s.edges) x e.source) → e.hidden = false) :
    ((toggleCollapse (toggleCollapse s x) x).nodes.map (fun n => n.hidden)
        = s.nodes.map (fun n => n.hidden)) ∧
    ((toggleCollapse (toggleCollapse s x) x).edges.map (fun e => e.hidden)
        = s.edges.map (fun e => e.hidden)) := by
  have hmem : x ∈ s.nodes.map (fun n => n.id) := by
    obtain ⟨n, hn, hpair⟩ := List.mem_map.mp hkindmem
    refine List.mem_map.mpr ⟨n, hn, ?_⟩
    have := congrArg Prod.fst hpair
    simpa using this
  have hc1 : isCurOf s x = false := isCurOf_eq_of_uniform s x false hmem hcol
  have hc2 : isCurOf (toggleCollapse s x) x = true := by
    rw [isCurOf_toggle_nid s x hmem, hc1]
    rfl
  constructor
  · rw [toggleCollapse_nodes (toggleCollapse s x) x, toggleCollapse_nodes s x,
      List.map_map, List.map_map]
    refine List.map_congr_left (fun n hn => ?_)
    show (updNode (toggleCollapse s x) x (updNode s x n)).hidden = n.hidden
    rw [updNode_hidden, updNode_id]
    by_cases hm : n.id ∈ (toggleTraverse s.edges x).1
    · rw [if_pos ((trav_toggle_nodes s x x n.id).mpr hm), hc2]
      have hdesc := (((toggleTraverse_mem s.edges x).1 n.id).mp hm).1
      exact (hvisN n hn hdesc).symm
    · rw [if_neg (fun hc => hm ((trav_toggle_nodes s x x n.id).mp hc))]
      rw [updNode_hidden, if_neg hm]
  · rw [toggleCollapse_edges (toggleCollapse s x) x, toggleCollapse_edges s x,
      List.map_map, List.map_map]
    refine List.map_congr_left (fun e he => ?_)
    show (updEdge (toggleCollapse s x) x (updEdge s x e)).hidden = e.hidden
    rw [updEdge_hidden, updEdge_id]
    by_cases hm : e.id ∈ (toggleTraverse s.edges x).2
    · rw [if_pos ((trav_toggle_edges s x x e.id).mpr hm), hc2]
      obtain ⟨e₂, he₂, hid, hcond⟩ := ((toggleTraverse_mem s.edges x).2 e.id).mp hm
      have heq : e₂ = e := List.inj_on_of_nodup_map hndE he₂ he hid
      subst heq
      have hcond' : e₂.source = x ∨ Relation.TransGen (estep s.edges) x e₂.source := by
        rcases hcond with h | ⟨h1, _⟩
        · exact Or.inl h
        · exact Or.inr h1
      exact (hvisE e₂ he hcond').symm
    · rw [if_neg (fun hc => hm ((trav_toggle_edges s x x e.id).mp hc))]
      rw [updEdge_hidden, if_neg hm]

/-- Witness for the amended C4: double-toggling topic 0 of a concrete fresh
layout restores all hidden flags. -/
theorem c4_double_toggle_amended_witness :
    ((toggleCollapse (toggleCollapse (initState wTrig wSum) (NodeId.topic 0))
        (NodeId.topic 0)).nodes.map (fun n => n.hidden)
      = (initState wTrig wSum).nodes.map (fun n => n.hidden)) ∧
    ((toggleCollapse (toggleCollapse (initState wTrig wSum) (NodeId.topic 0))
        (NodeId.topic 0)).edges.map (fun e => e.hidden)
      = (initState wTrig wSum).edges.map (fun e => e.hidden)) :=
  c4_double_toggle_amended (initState wTrig wSum) (NodeId.topic 0) NodeKind.topic
    (by decide) (by decide) (Or.inl rfl)
    (fun n hn _ => (init_node_flags wTrig wSum n hn).2)
    (fun n hn _ => (init_node_flags wTrig wSum n hn).1)
    (fun e he _ => init_edge_flags wTrig wSum e he)

/-! ## Acyclicity, the unique-parent chain property, and the initial state -/

theorem transGen_rank (edges : List VEdge)
    (h : ∀ e ∈ edges, rank e.target = rank e.source + 1) :
    ∀ a b, Relation.TransGen (estep edges) a b → rank a < rank b := by
  intro a b htg
  induction htg with
  | single hstep =>
    obtain ⟨e, he, hs, ht⟩ := hstep
    have hr := h e he
    rw [hs, ht] at hr
    omega
  | tail _ hstep ih =>
    obtain ⟨e, he, hs, ht⟩ := hstep
    have hr := h e he
    rw [hs, ht] at hr
    omega

theorem init_edge_statics (tg : Trig) (s : SummaryResult) :
    ∀ e ∈ (initState tg s).edges,
      ∃ e₀ ∈ (generateMindMapData tg s).edges,
        e.id = e₀.id ∧ e.source = e₀.source ∧ e.target = e₀.target := by
  intro e he
  obtain ⟨e₀, he₀, rfl⟩ := List.mem_map.mp he
  exact ⟨e₀, he₀, rfl, rfl, rfl⟩

theorem init_ids_eq (tg : Trig) (s : SummaryResult) :
    (initState tg s).nodes.map (fun n => n.id)
      = (generateMindMapData tg s).nodes.map (fun n => n.id) := by
  show ((generateMindMapData tg s).nodes.map initNode).map _ = _
  rw [List.map_map]
  rfl

theorem init_edge_ids_eq (tg : Trig) (s : SummaryResult) :
    (initState tg s).edges.map (fun e => e.id)
      = (generateMindMapData tg s).edges.map (fun e => e.id) := by
  show ((generateMindMapData tg s).edges.map initEdge).map _ = _
  rw [List.map_map]
  rfl

theorem init_edge_targets_eq (tg : Trig) (s : SummaryResult) :
    (initState tg s).edges.map (fun e => e.target)
      = (generateMindMapData tg s).edges.map (fun e => e.target) := by
  show ((generateMindMapData tg s).edges.map initEdge).map _ = _
  rw [List.map_map]
  rfl

theorem gen_edge_ids_nodup (tg : Trig) (s : SummaryResult) :
    (((generateMindMapData tg s).edges.map (fun e => e.id))).Nodup := by
  have htalt : (generateMindMapData tg s).edges.map (fun e => e.target)
      = ((generateMindMapData tg s).edges.map (fun e => e.id)).map EdgeId.tgt := by
    rw [List.map_map]
    refine List.map_congr_left (fun e he => ?_)
    show e.target = EdgeId.tgt e.id
    rw [(gen_edges_shape tg s e he).2.1]
    rfl
  have hnd : ((generateMindMapData tg s).edges.map (fun e => e.target)).Nodup := by
    rw [gen_edges_targets]
    exact orderSpecTopics_fst_nodup s.topics 0
  rw [htalt] at hnd
  exact hnd.of_map

theorem gen_target_mem_ids (tg : Trig) (s : SummaryResult) :
    ∀ e ∈ (generateMindMapData tg s).edges,
      e.target ∈ (generateMindMapData tg s).nodes.map (fun n => n.id) := by
  intro e he
  have h1 : e.target ∈ (generateMindMapData tg s).edges.map (fun e => e.target) :=
    List.mem_map_of_mem _ he
  rw [gen_edges_targets] at h1
  rw [gen_nodes_ids]
  exact List.mem_cons_of_mem _ h1

theorem static_init (tg : Trig) (s : SummaryResult) : StaticOK (initState tg s) := by
  refine ⟨?_, ?_, ?_, ?_, ?_, ?_⟩
  · rw [init_ids_eq]
    exact gen_nodes_ids_nodup tg s
  · rw [init_edge_ids_eq]
    exact gen_edge_ids_nodup tg s
  · intro e he
    obtain ⟨e₀, he₀, _, _, ht⟩ := init_edge_statics tg s e he
    have := gen_target_mem_ids tg s e₀ he₀
    rw [← init_ids_eq] at this
    obtain ⟨n, hn, hid⟩ := List.mem_map.mp this
    exact ⟨n, hn, by rw [hid, ht]⟩
  · intro e he
    obtain ⟨e₀, he₀, _, hsrc, ht⟩ := init_edge_statics tg s e he
    have hmemt := gen_target_mem_ids tg s e₀ he₀
    have hpc := gen_parent_closure tg s e₀.target hmemt
    rw [← (gen_edges_shape tg s e₀ he₀).1] at hpc
    rw [← init_ids_eq] at hpc
    obtain ⟨n, hn, hid⟩ := List.mem_map.mp hpc
    exact ⟨n, hn, by rw [hid, hsrc]⟩
  · intro e₁ h₁ e₂ h₂ ht
    obtain ⟨f₁, hf₁, _, hs₁, ht₁⟩ := init_edge_statics tg s e₁ h₁
    obtain ⟨f₂, hf₂, _, hs₂, ht₂⟩ := init_edge_statics tg s e₂ h₂
    have hnd : ((generateMindMapData tg s).edges.map (fun e => e.target)).Nodup := by
      rw [gen_edges_targets]
      exact orderSpecTopics_fst_nodup s.topics 0
    have heq : f₁ = f₂ :=
      List.inj_on_of_nodup_map hnd hf₁ hf₂ (by rw [← ht₁, ← ht₂, ht])
    rw [hs₁, hs₂, heq]
  · intro z hz
    have hr : ∀ e ∈ (initState tg s).edges, rank e.target = rank e.source + 1 := by
      intro e he
      obtain ⟨e₀, he₀, _, hs, ht⟩ := init_edge_statics tg s e he
      rw [hs, ht]
      exact (gen_edges_shape tg s e₀ he₀).2.2
    exact absurd (transGen_rank (initState tg s).edges hr z z hz) (lt_irrefl _)

theorem invNodes_init (tg : Trig) (s : SummaryResult) : InvNodes (initState tg s) := by
  intro n hn
  rw [(init_node_flags tg s n hn).1]
  constructor
  · intro h
    exact absurd h (by simp)
  · rintro ⟨a, ha, hca, _⟩
    rw [(init_node_flags tg s a ha).2] at hca
    exact absurd hca (by simp)

theorem invEdges_init (tg : Trig) (s : SummaryResult) : InvEdges (initState tg s) := by
  intro e he
  rw [init_edge_flags tg s e he]
  constructor
  · intro h
    exact absurd h (by simp)
  · rintro ⟨a, ha, _, hor⟩
    rcases hor with h | h
    · rw [(init_node_flags tg s a ha).2] at h
      exact absurd h (by simp)
    · rw [(init_node_flags tg s a ha).1] at h
      exact absurd h (by simp)

theorem static_toggle (s : MMState) (nid : NodeId) (h : StaticOK s) :
    StaticOK (toggleCollapse s nid) := by
  obtain ⟨h1, h2, h3, h4, h5, h6⟩ := h
  refine ⟨?_, ?_, ?_, ?_, ?_, ?_⟩
  · rw [toggle_ids]
    exact h1
  · rw [toggleCollapse_edges, List.map_map]
    have heq : s.edges.map (fun e => (updEdge s nid e).id)
        = s.edges.map (fun e => e.id) :=
      List.map_congr_left (fun e _ => updEdge_id s nid e)
    rw [show ((fun e => e.id) ∘ updEdge s nid) = fun e => (updEdge s nid e).id from rfl, heq]
    exact h2
  · intro e' he'
    rw [toggleCollapse_edges] at he'
    obtain ⟨e, he, rfl⟩ := List.mem_map.mp he'
    obtain ⟨n, hn, hid⟩ := h3 e he
    refine ⟨updNode s nid n, ?_, ?_⟩
    · rw [toggleCollapse_nodes]
      exact List.mem_map_of_mem _ hn
    · rw [updNode_id, updEdge_target]
      exact hid
  · intro e' he'
    rw [toggleCollapse_edges] at he'
    obtain ⟨e, he, rfl⟩ := List.mem_map.mp he'
    obtain ⟨n, hn, hid⟩ := h4 e he
    refine ⟨updNode s nid n, ?_, ?_⟩
    · rw [toggleCollapse_nodes]
      exact List.mem_map_of_mem _ hn
    · rw [updNode_id, updEdge_source]
      exact hid
  · intro e₁' h₁' e₂' h₂' ht
    rw [toggleCollapse_edges] at h₁' h₂'
    obtain ⟨e₁, he₁, rfl⟩ := List.mem_map.mp h₁'
    obtain ⟨e₂, he₂, rfl⟩ := List.mem_map.mp h₂'
    rw [updEdge_target, updEdge_target] at ht
    rw [updEdge_source, updEdge_source]
    exact h5 e₁ he₁ e₂ he₂ ht
  · intro z hz
    rw [transGen_toggle] at hz
    exact h6 z hz

theorem rtg_comparable (edges : List VEdge)
    (huniq : ∀ e₁ ∈ edges, ∀ e₂ ∈ edges, e₁.target = e₂.target → e₁.source = e₂.source) :
    ∀ a c, Relation.ReflTransGen (estep edges) a c →
      ∀ b, Relation.ReflTransGen (estep edges) b c →
        Relation.ReflTransGen (estep edges) a b ∨
          Relation.ReflTransGen (estep edges) b a := by
  intro a c h1
  induction h1 with
  | refl =>
    intro b h2
    exact Or.inr h2
  | tail h1' hstep ih =>
    rename_i d c'
    intro b h2
    rcases Relation.ReflTransGen.cases_tail h2 with heq | ⟨d', hbd', hd'c⟩
    · refine Or.inl ?_
      rw [← heq]
      exact Relation.ReflTransGen.tail h1' hstep
    · have hdd : d' = d := by
        obtain ⟨e1, he1, hs1, ht1⟩ := hd'c
        obtain ⟨e2, he2, hs2, ht2⟩ := hstep
        have hse := huniq e1 he1 e2 he2 (by rw [ht1, ht2])
        rw [hs1, hs2] at hse
        exact hse
      rw [hdd] at hbd'
      exact ih b hbd'

theorem updNode_isCollapsed_keep (s : MMState) (nid : NodeId) (n : VNode)
    (hc : isCurOf s nid = false) (hne : n.id ≠ nid) :
    (updNode s nid n).isCollapsed = n.isCollapsed := by
  by_cases hm : n.id ∈ (toggleTraverse s.edges nid).1
  · exact updNode_isCollapsed_mem_keep s nid n hc hm
  · exact updNode_isCollapsed_not_mem s nid n hne hm

theorem inv_toggle (s : MMState) (n₀ : VNode)
    (hstat : StaticOK s) (hIN : InvNodes s) (hIE : InvEdges s)
    (hmem : n₀ ∈ s.nodes) (hvis : n₀.hidden = false) :
    InvNodes (toggleCollapse s n₀.id) ∧ InvEdges (toggleCollapse s n₀.id) := by
  obtain ⟨hndN, hndE, htgtN, hsrcN, huniq, hacy⟩ := hstat
  have hcx : isCurOf s n₀.id = n₀.isCollapsed := by
    refine isCurOf_eq_of_uniform s n₀.id n₀.isCollapsed (List.mem_map_of_mem _ hmem) ?_
    intro n hn heq
    rw [List.inj_on_of_nodup_map hndN hn hmem heq]
  have hD := (toggleTraverse_mem s.edges n₀.id).1
  have hDE : ∀ e ∈ s.edges, (e.id ∈ (toggleTraverse s.edges n₀.id).2 ↔
      (e.source = n₀.id ∨
        (Relation.TransGen (estep s.edges) n₀.id e.source ∧ e.source ≠ n₀.id))) := by
    intro e he
    rw [(toggleTraverse_mem s.edges n₀.id).2 e.id]
    constructor
    · rintro ⟨e₂, he₂, hid, hcond⟩
      rw [← List.inj_on_of_nodup_map hndE he₂ he hid]
      exact hcond
    · intro hcond
      exact ⟨e, he, rfl, hcond⟩
  have hTG := transGen_toggle s n₀.id
  cases hb : n₀.isCollapsed with
  | false =>
    have hc : isCurOf s n₀.id = false := by rw [hcx, hb]
    constructor
    · intro n' hn'
      rw [toggleCollapse_nodes] at hn'
      obtain ⟨n, hn, rfl⟩ := List.mem_map.mp hn'
      rw [updNode_hidden]
      by_cases hm : n.id ∈ (toggleTraverse s.edges n₀.id).1
      · rw [if_pos hm, hc]
        simp only [Bool.not_false]
        constructor
        · intro _
          refine ⟨updNode s n₀.id n₀, ?_, ?_, ?_⟩
          · rw [toggleCollapse_nodes]
            exact List.mem_map_of_mem _ hmem
          · rw [updNode_isCollapsed_nid s n₀.id n₀ rfl, hc]
            rfl
          · rw [updNode_id, updNode_id, hTG]
            exact ((hD n.id).mp hm).1
        · intro _
          trivial
      · rw [if_neg hm]
        rw [hIN n hn]
        constructor
        · rintro ⟨a, ha, hca, htg⟩
          have hanex : a.id ≠ n₀.id := by
            intro h
            have haeq : a = n₀ := List.inj_on_of_nodup_map hndN ha hmem h
            rw [haeq, hb] at hca
            exact absurd hca (by simp)
          refine ⟨updNode s n₀.id a, ?_, ?_, ?_⟩
          · rw [toggleCollapse_nodes]
            exact List.mem_map_of_mem _ ha
          · rw [updNode_isCollapsed_keep s n₀.id a hc hanex]
            exact hca
          · rw [updNode_id, updNode_id, hTG]
            exact htg
        · rintro ⟨a', ha', hca', htg'⟩
          rw [toggleCollapse_nodes] at ha'
          obtain ⟨a, ha, rfl⟩ := List.mem_map.mp ha'
          rw [updNode_id, updNode_id, hTG] at htg'
          have hanex : a.id ≠ n₀.id := by
            intro h
            rw [h] at htg'
            by_cases hnx : n.id = n₀.id
            · rw [hnx] at htg'
              exact hacy n₀.id htg'
            · exact hm ((hD n.id).mpr ⟨htg', hnx⟩)
          rw [updNode_isCollapsed_keep s n₀.id a hc hanex] at hca'
          exact ⟨a, ha, hca', htg'⟩
    · intro e' he'
      rw [toggleCollapse_edges] at he'
      obtain ⟨e, he, rfl⟩ := List.mem_map.mp he'
      rw [updEdge_hidden]
      by_cases hm : e.id ∈ (toggleTraverse s.edges n₀.id).2
      · rw [if_pos hm, hc]
        simp only [Bool.not_false]
        constructor
        · intro _
          rcases (hDE e he).mp hm with hsx | ⟨htg, hne⟩
          · refine ⟨updNode s n₀.id n₀, ?_, ?_, Or.inl ?_⟩
            · rw [toggleCollapse_nodes]
              exact List.mem_map_of_mem _ hmem
            · rw [updNode_id, updEdge_source, hsx]
            · rw [updNode_isCollapsed_nid s n₀.id n₀ rfl, hc]
              rfl
          · obtain ⟨w, hw, hwid⟩ := hsrcN e he
            refine ⟨updNode s n₀.id w, ?_, ?_, Or.inr ?_⟩
            · rw [toggleCollapse_nodes]
              exact List.mem_map_of_mem _ hw
            · rw [updNode_id, updEdge_source]
              exact hwid
            · have hwm : w.id ∈ (toggleTraverse s.edges n₀.id).1 :=
                (hD w.id).mpr ⟨by rw [hwid]; exact htg, by rw [hwid]; exact hne⟩
              rw [updNode_hidden, if_pos hwm, hc]
              rfl
        · intro _
          trivial
      · rw [if_neg hm]
        rw [hIE e he]
        have hcond : ¬(e.source = n₀.id ∨
            (Relation.TransGen (estep s.edges) n₀.id e.source ∧ e.source ≠ n₀.id)) :=
          fun hcond => hm ((hDE e he).mpr hcond)
        obtain ⟨hnsx, hnB⟩ := not_or.mp hcond
        have hnsm : e.source ∉ (toggleTraverse s.edges n₀.id).1 :=
          fun hmm => hnB ((hD e.source).mp hmm)
        constructor
        · rintro ⟨a, ha, haid, hor⟩
          have hane : a.id ≠ n₀.id := by rw [haid]; exact hnsx
          have ham : a.id ∉ (toggleTraverse s.edges n₀.id).1 := by rw [haid]; exact hnsm
          refine ⟨updNode s n₀.id a, ?_, ?_, ?_⟩
          · rw [toggleCollapse_nodes]
            exact List.mem_map_of_mem _ ha
          · rw [updNode_id, updEdge_source]
            exact haid
          · rcases hor with h | h
            · exact Or.inl (by rw [updNode_isCollapsed_keep s n₀.id a hc hane]; exact h)
            · exact Or.inr (by rw [updNode_hidden, if_neg ham]; exact h)
        · rintro ⟨a', ha', haid, hor⟩
          rw [toggleCollapse_nodes] at ha'
          obtain ⟨a, ha, rfl⟩ := List.mem_map.mp ha'
          rw [updNode_id, updEdge_source] at haid
          have hane : a.id ≠ n₀.id := by rw [haid]; exact hnsx
          have ham : a.id ∉ (toggleTraverse s.edges n₀.id).1 := by rw [haid]; exact hnsm
          refine ⟨a, ha, haid, ?_⟩
          rcases hor with h | h
          · rw [updNode_isCollapsed_keep s n₀.id a hc hane] at h
            exact Or.inl h
          · rw [updNode_hidden, if_neg ham] at h
            exact Or.inr h
  | true =>
    have hc : isCurOf s n₀.id = true := by rw [hcx, hb]
    have hnoanc : ∀ a ∈ s.nodes, a.isCollapsed = true →
        ¬ Relation.TransGen (estep s.edges) a.id n₀.id := by
      intro a ha hca htg
      have hh := (hIN n₀ hmem).mpr ⟨a, ha, hca, htg⟩
      rw [hvis] at hh
      exact absurd hh (by simp)
    have hchain : ∀ (a : VNode) (z : NodeId), a ∈ s.nodes → a.isCollapsed = true →
        a.id ≠ n₀.id → a.id ∉ (toggleTraverse s.edges n₀.id).1 →
        Relation.TransGen (estep s.edges) a.id z →
        (Relation.TransGen (estep s.edges) n₀.id z ∧ z ≠ n₀.id) → False := by
      rintro a z ha hca hanex hanem htg ⟨htgx, _⟩
      obtain ⟨p, hap, hpstep⟩ := Relation.TransGen.tail'_iff.mp htg
      obtain ⟨q, hxq, hqstep⟩ := Relation.TransGen.tail'_iff.mp htgx
      have hpq : p = q := by
        obtain ⟨e1, he1, hs1, ht1⟩ := hpstep
        obtain ⟨e2, he2, hs2, ht2⟩ := hqstep
        have hse := huniq e1 he1 e2 he2 (by rw [ht1, ht2])
        rw [hs1, hs2] at hse
        exact hse
      rw [← hpq] at hxq
      rcases rtg_comparable s.edges huniq a.id p hap n₀.id hxq with hax | hxa
      · rcases Relation.reflTransGen_iff_eq_or_transGen.mp hax with heq | htgax
        · exact hanex heq.symm
        · exact hnoanc a ha hca htgax
      · rcases Relation.reflTransGen_iff_eq_or_transGen.mp hxa with heq | htgxa
        · exact hanex heq
        · exact hanem ((hD a.id).mpr ⟨htgxa, hanex⟩)
    constructor
    · intro n' hn'
      rw [toggleCollapse_nodes] at hn'
      obtain ⟨n, hn, rfl⟩ := List.mem_map.mp hn'
      rw [updNode_hidden]
      by_cases hm : n.id ∈ (toggleTraverse s.edges n₀.id).1
      · rw [if_pos hm, hc]
        simp only [Bool.not_true]
        constructor
        · intro h
          exact absurd h (by simp)
        · rintro ⟨a', ha', hca', htg'⟩
          exfalso
          rw [toggleCollapse_nodes] at ha'
          obtain ⟨a, ha, rfl⟩ := List.mem_map.mp ha'
          rw [updNode_id, updNode_id, hTG] at htg'
          by_cases hax : a.id = n₀.id
          · rw [updNode_isCollapsed_nid s n₀.id a hax, hc] at hca'
            exact absurd hca' (by simp)
          · by_cases ham : a.id ∈ (toggleTraverse s.edges n₀.id).1
            · rw [updNode_isCollapsed_mem_reset s n₀.id a hc ham] at hca'
              exact absurd hca' (by simp)
            · rw [updNode_isCollapsed_not_mem s n₀.id a hax ham] at hca'
              exact hchain a n.id ha hca' hax ham htg' ((hD n.id).mp hm)
      · rw [if_neg hm]
        rw [hIN n hn]
        constructor
        · rintro ⟨a, ha, hca, htg⟩
          have hax : a.id ≠ n₀.id := by
            intro h
            rw [h] at htg
            by_cases hnx : n.id = n₀.id
            · rw [hnx] at htg
              exact hacy n₀.id htg
            · exact hm ((hD n.id).mpr ⟨htg, hnx⟩)
          have ham : a.id ∉ (toggleTraverse s.edges n₀.id).1 := by
            intro hmm
            obtain ⟨htgxa, _⟩ := (hD a.id).mp hmm
            have htgxn : Relation.TransGen (estep s.edges) n₀.id n.id := htgxa.trans htg
            by_cases hnx : n.id = n₀.id
            · rw [hnx] at htgxn
              exact hacy n₀.id htgxn
            · exact hm ((hD n.id).mpr ⟨htgxn, hnx⟩)
          refine ⟨updNode s n₀.id a, ?_, ?_, ?_⟩
          · rw [toggleCollapse_nodes]
            exact List.mem_map_of_mem _ ha
          · rw [updNode_isCollapsed_not_mem s n₀.id a hax ham]
            exact hca
          · rw [updNode_id, updNode_id, hTG]
            exact htg
        · rintro ⟨a', ha', hca', htg'⟩
          rw [toggleCollapse_nodes] at ha'
          obtain ⟨a, ha, rfl⟩ := List.mem_map.mp ha'
          rw [updNode_id, updNode_id, hTG] at htg'
          by_cases hax : a.id = n₀.id
          · rw [updNode_isCollapsed_nid s n₀.id a hax, hc] at hca'
            exact absurd hca' (by simp)
          · by_cases ham : a.id ∈ (toggleTraverse s.edges n₀.id).1
            · rw [updNode_isCollapsed_mem_reset s n₀.id a hc ham] at hca'
              exact absurd hca' (by simp)
            · rw [updNode_isCollapsed_not_mem s n₀.id a hax ham] at hca'
              exact ⟨a, ha, hca', htg'⟩
    · intro e' he'
      rw [toggleCollapse_edges] at he'
      obtain ⟨e, he, rfl⟩ := List.mem_map.mp he'
      rw [updEdge_hidden]
      by_cases hm : e.id ∈ (toggleTraverse s.edges n₀.id).2
      · rw [if_pos hm, hc]
        simp only [Bool.not_true]
        constructor
        · intro h
          exact absurd h (by simp)
        · rintro ⟨a', ha', haid, hor⟩
          exfalso
          rw [toggleCollapse_nodes] at ha'
          obtain ⟨a, ha, rfl⟩ := List.mem_map.mp ha'
          rw [updNode_id, updEdge_source] at haid
          rcases (hDE e he).mp hm with hsx | ⟨htg, hne⟩
          · have hax : a.id = n₀.id := by rw [haid, hsx]
            have haeq : a = n₀ := List.inj_on_of_nodup_map hndN ha hmem hax
            rcases hor with h | h
            · rw [updNode_isCollapsed_nid s n₀.id a hax, hc] at h
              exact absurd h (by simp)
            · rw [updNode_hidden,
                if_neg (by rw [hax]; exact nid_not_mem_trav s.edges n₀.id)] at h
              rw [haeq, hvis] at h
              exact absurd h (by simp)
          · have ham : a.id ∈ (toggleTraverse s.edges n₀.id).1 := by
              rw [haid]
              exact (hD e.source).mpr ⟨htg, hne⟩
            rcases hor with h | h
            · rw [updNode_isCollapsed_mem_reset s n₀.id a hc ham] at h
              exact absurd h (by simp)
            · rw [updNode_hidden, if_pos ham, hc] at h
              exact absurd h (by simp)
      · rw [if_neg hm]
        rw [hIE e he]
        have hcond : ¬(e.source = n₀.id ∨
            (Relation.TransGen (estep s.edges) n₀.id e.source ∧ e.source ≠ n₀.id)) :=
          fun hcond => hm ((hDE e he).mpr hcond)
        obtain ⟨hnsx, hnB⟩ := not_or.mp hcond
        have hnsm : e.source ∉ (toggleTraverse s.edges n₀.id).1 :=
          fun hmm => hnB ((hD e.source).mp hmm)
        constructor
        · rintro ⟨a, ha, haid, hor⟩
          have hane : a.id ≠ n₀.id := by rw [haid]; exact hnsx
          have ham : a.id ∉ (toggleTraverse s.edges n₀.id).1 := by rw [haid]; exact hnsm
          refine ⟨updNode s n₀.id a, ?_, ?_, ?_⟩
          · rw [toggleCollapse_nodes]
            exact List.mem_map_of_mem _ ha
          · rw [updNode_id, updEdge_source]
            exact haid
          · rcases hor with h | h
            · exact Or.inl (by rw [updNode_isCollapsed_not_mem s n₀.id a hane ham]; exact h)
            · exact Or.inr (by rw [updNode_hidden, if_neg ham]; exact h)
        · rintro ⟨a', ha', haid, hor⟩
          rw [toggleCollapse_nodes] at ha'
          obtain ⟨a, ha, rfl⟩ := List.mem_map.mp ha'
          rw [updNode_id, updEdge_source] at haid
          have hane : a.id ≠ n₀.id := by rw [haid]; exact hnsx
          have ham : a.id ∉ (toggleTraverse s.edges n₀.id).1 := by rw [haid]; exact hnsm
          refine ⟨a, ha, haid, ?_⟩
          rcases hor with h | h
          · rw [updNode_isCollapsed_not_mem s n₀.id a hane ham] at h
            exact Or.inl h
          · rw [updNode_hidden, if_neg ham] at h
            exact Or.inr h

theorem goodReach_inv (tg : Trig) (summary : SummaryResult) (s : MMState)
    (h : GoodReach tg summary s) : StaticOK s ∧ InvNodes s ∧ InvEdges s := by
  induction h with
  | init =>
      exact ⟨static_init tg summary, invNodes_init tg summary, invEdges_init tg summary⟩
  | step s n hg hn hvis hkind ih =>
      obtain ⟨hs, hin, hie⟩ := ih
      obtain ⟨hin', hie'⟩ := inv_toggle s n hs hin hie hn hvis
      exact ⟨static_toggle s n.id hs, hin', hie'⟩

theorem consistent_of_inv (s : MMState) (hstat : StaticOK s)
    (hIN : InvNodes s) (hIE : InvEdges s) : edgeNodeConsistent s := by
  obtain ⟨hndN, hndE, htgtN, hsrcN, huniq, hacy⟩ := hstat
  have hmain : ∀ n ∈ s.nodes, n.hidden = true →
      ∀ e ∈ s.edges, (e.source = n.id ∨ e.target = n.id) → e.hidden = true := by
    intro n hn hnh e he hor
    rcases hor with hsrc | htgt
    · exact (hIE e he).mpr ⟨n, hn, hsrc.symm, Or.inr hnh⟩
    · obtain ⟨a, ha, hca, htg⟩ := (hIN n hn).mp hnh
      obtain ⟨w, hw, hwid⟩ := hsrcN e he
      obtain ⟨p, hap, hpstep⟩ := Relation.TransGen.tail'_iff.mp htg
      have hpw : p = e.source := by
        obtain ⟨e₂, he₂, hs₂, ht₂⟩ := hpstep
        have hse := huniq e₂ he₂ e he (by rw [ht₂, htgt])
        rw [hs₂] at hse
        exact hse
      refine (hIE e he).mpr ⟨w, hw, hwid, ?_⟩
      rw [hpw, ← hwid] at hap
      rcases Relation.reflTransGen_iff_eq_or_transGen.mp hap with heq | htgaw
      · have haw : a = w := List.inj_on_of_nodup_map hndN ha hw heq.symm
        exact Or.inl (by rw [← haw]; exact hca)
      · exact Or.inr ((hIN w hw).mpr ⟨a, ha, hca, htgaw⟩)
  refine ⟨hmain, ?_, ?_⟩
  · intro e he ns hns nt hnt hsid htid hsh hth
    exact hmain ns hns hsh e he (Or.inl hsid.symm)
  · intro e he heh n hn hor
    by_contra hcon
    have hnh : n.hidden = true := by simpa using hcon
    have heh' := hmain n hn hnh e he
      (by rcases hor with h | h; exacts [Or.inl h.symm, Or.inr h.symm])
    rw [heh] at heh'
    exact absurd heh' (by simp)

/-! ## C3: edge/node visibility consistency -/

/-- Claim C3 (amended): in every state reachable from the freshly generated
layout by toggle operations issued through the UI — each toggle targets a
currently visible topic or subtopic node, the only nodes that render a
collapse button — a node with `hidden = true` has `hidden = true` on every
incident edge, an edge whose two endpoints are hidden is itself hidden, and
no visible edge has a hidden endpoint. For arbitrary `toggleCollapse`
sequences (including toggles of already-hidden nodes) the property fails;
see the counterexample. -/
theorem c3_edge_consistency (tg : Trig) (summary : SummaryResult) (s : MMState)
    (h : GoodReach tg summary s) : edgeNodeConsistent s := by
  obtain ⟨hs, hin, hie⟩ := goodReach_inv tg summary s h
  exact consistent_of_inv s hs hin hie

theorem c3_edge_consistency_witness :
    edgeNodeConsistent (initState wTrig wSum) :=
  c3_edge_consistency wTrig wSum (initState wTrig wSum) GoodReach.init

/-- The toggle sequence `[topic-0, subtopic-0-0, subtopic-0-0]` — whose last
two toggles hit a node hidden by the first — yields a state in which the
hidden node `subtopic-0-0` has a visible outgoing edge, refuting the claim
for arbitrary `toggleCollapse` sequences. -/
theorem c3_edge_consistency_counterexample :
    cState3 = runToggles (initState wTrig cSum)
      [NodeId.topic 0, NodeId.subtopic 0 0, NodeId.subtopic 0 0] ∧
    ¬ edgeNodeConsistent cState3 := by
  constructor
  · rfl
  · simp only [edgeNodeConsistent]
    decide
